import Mathlib

/-!
# Verification development for the `core` package (hash-chained ledger and Merkle tree)

The Go sources `core/merkle_tree.go`, `core/block.go` and `core/blockchain.go` are embedded
as Lean definitions.  Conventions of the embedding:

* a Go `string` is a Lean `String`; `+` on strings is `++`;
* the digest function (`calculateHash`, and the `sha256`/`hex` calls of
  `CalculateBlockHash`) is a parameter `H : String → String` of every definition, so that the
  theorems hold for any digest function; `calculateHash` below is the SHA-256 instance the
  program links against;
* a `*MerkleNode` is a value of `MerkleNode`: either `nil` or a node record together with the
  address `addr` of its allocation.  Pointer comparison (`==` on `*MerkleNode`) is comparison
  of addresses (`MerkleNode.ptrEq`);
* Go `int`/`int64` values are Lean integers, `+` wraps at 64 bits (`intAdd`);
* a recursion or loop whose termination depends on the data carries a `fuel : Nat` argument and
  returns `none` when the fuel is exhausted; `none` also stands for a nil dereference;
* the `fmt.Println` tracing of the Go code is not part of the model.
-/

namespace Core

/-! ## SHA-256 and hex encoding (Go standard library: `crypto/sha256`, `encoding/hex`) -/

namespace Sha256

/-- Round constants of SHA-256 (FIPS 180-4, section 4.2.2), in decimal: the first 32 bits of
the fractional parts of the cube roots of the first 64 primes. -/
def K : List Nat := [
  1116352408, 1899447441, 3049323471, 3921009573, 961987163, 1508970993,
  2453635748, 2870763221, 3624381080, 310598401, 607225278, 1426881987,
  1925078388, 2162078206, 2614888103, 3248222580, 3835390401, 4022224774,
  264347078, 604807628, 770255983, 1249150122, 1555081692, 1996064986,
  2554220882, 2821834349, 2952996808, 3210313671, 3336571891, 3584528711,
  113926993, 338241895, 666307205, 773529912, 1294757372, 1396182291,
  1695183700, 1986661051, 2177026350, 2456956037, 2730485921, 2820302411,
  3259730800, 3345764771, 3516065817, 3600352804, 4094571909, 275423344,
  430227734, 506948616, 659060556, 883997877, 958139571, 1322822218,
  1537002063, 1747873779, 1955562222, 2024104815, 2227730452, 2361852424,
  2428436474, 2756734187, 3204031479, 3329325298]

/-- Rotate a 32-bit word right by `n` bits. -/
def rotr (x n : Nat) : Nat := ((x >>> n) ||| (x <<< (32 - n))) % 4294967296

/-- Addition of 32-bit words. -/
def add32 (a b : Nat) : Nat := (a + b) % 4294967296

/-- Message padding: a `0x80` byte, zero bytes up to 56 modulo 64, the bit length on 8 bytes. -/
def pad (m : List Nat) : List Nat :=
  let l := m.length
  let bits := 8 * l
  m ++ [0x80] ++ List.replicate ((119 - l % 64) % 64) 0 ++
    [(bits >>> 56) % 256, (bits >>> 48) % 256, (bits >>> 40) % 256, (bits >>> 32) % 256,
     (bits >>> 24) % 256, (bits >>> 16) % 256, (bits >>> 8) % 256, bits % 256]

/-- Big-endian 32-bit words of a byte sequence. -/
def words : List Nat → List Nat
  | a :: b :: c :: d :: rest => (((a * 256 + b) * 256 + c) * 256 + d) :: words rest
  | _ => []

/-- The eight working words of the compression function. -/
structure State where
  a : Nat
  b : Nat
  c : Nat
  d : Nat
  e : Nat
  f : Nat
  g : Nat
  h : Nat

/-- Small sigma 0 of the message schedule. -/
def sig0 (x : Nat) : Nat := (rotr x 7) ^^^ (rotr x 18) ^^^ (x >>> 3)

/-- Small sigma 1 of the message schedule. -/
def sig1 (x : Nat) : Nat := (rotr x 17) ^^^ (rotr x 19) ^^^ (x >>> 10)

/-- The rounds of the compression function, one per round constant.  `w0 .. w15` are the
sixteen latest words of the message schedule (`w0` is the word of the current round, the word
entering the window is derived from `w0`, `w1`, `w9`, `w14`); `a .. h` are the working words. -/
def rounds : List Nat → Nat → Nat → Nat → Nat → Nat → Nat → Nat → Nat → Nat → Nat → Nat → Nat →
    Nat → Nat → Nat → Nat → Nat → Nat → Nat → Nat → Nat → Nat → Nat → Nat → State
  | [], _, _, _, _, _, _, _, _, _, _, _, _, _, _, _, _, a, b, c, d, e, f, g, h =>
    ⟨a, b, c, d, e, f, g, h⟩
  | k :: ks, w0, w1, w2, w3, w4, w5, w6, w7, w8, w9, w10, w11, w12, w13, w14, w15,
      a, b, c, d, e, f, g, h =>
    let t1 := add32 (add32 (add32 (add32 h ((rotr e 6) ^^^ (rotr e 11) ^^^ (rotr e 25)))
      ((e &&& f) ^^^ ((4294967295 - e) &&& g))) k) w0
    let t2 := add32 ((rotr a 2) ^^^ (rotr a 13) ^^^ (rotr a 22))
      ((a &&& b) ^^^ (a &&& c) ^^^ (b &&& c))
    rounds ks w1 w2 w3 w4 w5 w6 w7 w8 w9 w10 w11 w12 w13 w14 w15
      (add32 (add32 (add32 w0 (sig0 w1)) w9) (sig1 w14))
      (add32 t1 t2) a b c (add32 d t1) e f g

/-- Compression of one 64-byte block into the chaining state. -/
def compress (s : State) (block : List Nat) : State :=
  match words block with
  | [w0, w1, w2, w3, w4, w5, w6, w7, w8, w9, w10, w11, w12, w13, w14, w15] =>
    let r := rounds K w0 w1 w2 w3 w4 w5 w6 w7 w8 w9 w10 w11 w12 w13 w14 w15
      s.a s.b s.c s.d s.e s.f s.g s.h
    ⟨add32 s.a r.a, add32 s.b r.b, add32 s.c r.c, add32 s.d r.d,
     add32 s.e r.e, add32 s.f r.f, add32 s.g r.g, add32 s.h r.h⟩
  | _ => s

/-- Compression of `n` consecutive blocks of the padded message. -/
def blocks : Nat → List Nat → State → State
  | 0, _, s => s
  | n + 1, m, s => blocks n (m.drop 64) (compress s (m.take 64))

/-- The four bytes of a 32-bit word, most significant first. -/
def wordBytes (w : Nat) : List Nat :=
  [(w >>> 24) % 256, (w >>> 16) % 256, (w >>> 8) % 256, w % 256]

/-- The 32-byte SHA-256 digest of a byte sequence (`sha256.Sum256`). -/
def Sum256 (data : List Nat) : List Nat :=
  let m := pad data
  let r := blocks (m.length / 64) m
    ⟨1779033703, 3144134277, 1013904242, 2773480762,
     1359893119, 2600822924, 528734635, 1541459225⟩
  wordBytes r.a ++ wordBytes r.b ++ wordBytes r.c ++ wordBytes r.d ++
    wordBytes r.e ++ wordBytes r.f ++ wordBytes r.g ++ wordBytes r.h

end Sha256

/-- UTF-8 encoding of one code point. -/
def utf8Bytes (c : Nat) : List Nat :=
  if c < 0x80 then [c]
  else if c < 0x800 then [0xC0 ||| (c >>> 6), 0x80 ||| (c &&& 0x3F)]
  else if c < 0x10000 then
    [0xE0 ||| (c >>> 12), 0x80 ||| ((c >>> 6) &&& 0x3F), 0x80 ||| (c &&& 0x3F)]
  else
    [0xF0 ||| (c >>> 18), 0x80 ||| ((c >>> 12) &&& 0x3F), 0x80 ||| ((c >>> 6) &&& 0x3F),
     0x80 ||| (c &&& 0x3F)]

/-- The bytes of a string (the Go conversion `[]byte(s)`). -/
def stringBytes (s : String) : List Nat := s.data.flatMap (fun c => utf8Bytes c.toNat)

/-- One lower-case hexadecimal digit. -/
def hexDigit (n : Nat) : Char := "0123456789abcdef".data.getD n '0'

/-- Lower-case hexadecimal rendering of a byte sequence (`hex.EncodeToString`). -/
def hexEncodeToString (bs : List Nat) : String :=
  ⟨bs.flatMap (fun b => [hexDigit (b / 16), hexDigit (b % 16)])⟩

/-- Function `calculateHash` (merkle_tree.go, lines 78-81): the hex form of the SHA-256 digest
of a string. -/
def calculateHash (data : String) : String :=
  hexEncodeToString (Sha256.Sum256 (stringBytes data))

/-! ## core/merkle_tree.go -/

/-- A `*MerkleNode`: `nil`, or the node record allocated at address `addr`. -/
inductive MerkleNode where
  | nil : MerkleNode
  | node (addr : Nat) (Hash : String) (Left Right : MerkleNode) (Data : String) : MerkleNode
  deriving DecidableEq

namespace MerkleNode

/-- Comparison of two `*MerkleNode` pointers (`==`): both nil, or the same allocation. -/
def ptrEq : MerkleNode → MerkleNode → Bool
  | nil, nil => true
  | node a _ _ _ _, node b _ _ _ _ => a == b
  | _, _ => false

/-- Test `p == nil`. -/
def isNil : MerkleNode → Bool
  | nil => true
  | node _ _ _ _ _ => false

/-- Field `p.Hash` of a non-nil pointer. -/
def Hash : MerkleNode → String
  | nil => ""
  | node _ h _ _ _ => h

/-- Field `p.Left` of a non-nil pointer. -/
def Left : MerkleNode → MerkleNode
  | nil => nil
  | node _ _ l _ _ => l

/-- Field `p.Right` of a non-nil pointer. -/
def Right : MerkleNode → MerkleNode
  | nil => nil
  | node _ _ _ r _ => r

/-- Field `p.Data` of a non-nil pointer. -/
def Data : MerkleNode → String
  | nil => ""
  | node _ _ _ _ d => d

/-- Address of the allocation a non-nil pointer refers to. -/
def addr : MerkleNode → Nat
  | nil => 0
  | node a _ _ _ _ => a

end MerkleNode

/-- The struct `MerkleTree`. -/
structure MerkleTree where
  Root : MerkleNode
  LeafData : List String
  deriving DecidableEq

/-- Function `convertDataListToNodes` (merkle_tree.go, lines 35-45): one leaf per data item, in
order; `next` is the address of the first allocation. -/
def convertDataListToNodes (H : String → String) (next : Nat) (dataList : List String) :
    List MerkleNode :=
  dataList.foldl
    (fun nodes data => nodes ++ [MerkleNode.node (next + nodes.length) (H data) .nil .nil data])
    []

/-- The pairing loop of `buildMerkleTreeNodes` (`for i := 0; i < len(nodes); i += 2`), from
position `i` on: `pairNodes H next nodes` is the list of parents appended from there, the first
of them allocated at `next`.  A nil element makes `leftNode.Hash` fail (`none`). -/
def pairNodes (H : String → String) : Nat → List MerkleNode → Option (List MerkleNode)
  | _, [] => some []
  | next, [leftNode] =>
    match leftNode with
    | .nil => none
    | .node _ lh _ _ _ => some [MerkleNode.node next (H (lh ++ lh)) leftNode leftNode ""]
  | next, leftNode :: rightNode :: rest =>
    match leftNode, rightNode with
    | .node _ lh _ _ _, .node _ rh _ _ _ =>
      match pairNodes H (next + 1) rest with
      | some parents => some (MerkleNode.node next (H (lh ++ rh)) leftNode rightNode "" :: parents)
      | none => none
    | _, _ => none

/-- Function `buildMerkleTreeNodes` (merkle_tree.go, lines 48-75): the recursion over levels;
`next` is the next free address; `none` when the call does not return. -/
def buildMerkleTreeNodes (H : String → String) : Nat → Nat → List MerkleNode → Option MerkleNode
  | 0, _, _ => none
  | fuel + 1, next, nodes =>
    match nodes with
    | [root] => some root
    | _ =>
      match pairNodes H next nodes with
      | some parentNodes => buildMerkleTreeNodes H fuel (next + parentNodes.length) parentNodes
      | none => none

/-- Function `NewMerkleTree` (merkle_tree.go, lines 25-32): the pair `(tree, error)` as an
`Except`; `fuel` bounds the depth of the level recursion. -/
def NewMerkleTree (H : String → String) (fuel : Nat) (dataList : List String) :
    Option (Except String MerkleTree) :=
  if dataList.length = 0 then
    some (.error "cannot build Merkle Tree from empty data list")
  else
    match buildMerkleTreeNodes H fuel dataList.length (convertDataListToNodes H 0 dataList) with
    | some root => some (.ok { Root := root, LeafData := dataList })
    | none => none

/-- Function `GetMerkleRoot` (merkle_tree.go, lines 84-89). -/
def MerkleTree.GetMerkleRoot (mt : MerkleTree) : String :=
  match mt.Root with
  | .node _ h _ _ _ => h
  | .nil => ""

/-- Closure `findNodeRecursive` of `findLeafNode`, for the target digest `targetHash`. -/
def findNodeRecursive (targetHash : String) : MerkleNode → MerkleNode
  | .nil => .nil
  | .node a h l r d =>
    if l.isNil && r.isNil && h == targetHash then .node a h l r d
    else
      let leftResult := findNodeRecursive targetHash l
      if !leftResult.isNil then leftResult
      else findNodeRecursive targetHash r

/-- Function `findLeafNode` (merkle_tree.go, lines 130-149). -/
def findLeafNode (H : String → String) (root : MerkleNode) (data : String) : MerkleNode :=
  findNodeRecursive (H data) root

/-- Function `findParent` (merkle_tree.go, lines 152-165). -/
def findParent : MerkleNode → MerkleNode → MerkleNode
  | .nil, _ => .nil
  | .node a h l r d, child =>
    if l.isNil && r.isNil then .nil
    else if l.ptrEq child || r.ptrEq child then .node a h l r d
    else
      let parent := findParent l child
      if !parent.isNil then parent
      else findParent r child

/-- The loop `for current != mt.Root` of `GenerateMerkleProof`: at each step the parent of
`current` is searched from the root, the digest of the other child (when not nil) is appended
to the proof, and `current` moves to the parent. -/
def proofLoop (root : MerkleNode) : Nat → MerkleNode → List String →
    Option (Except String (List String))
  | 0, _, _ => none
  | fuel + 1, current, proof =>
    if current.ptrEq root then some (.ok proof)
    else
      let parent := findParent root current
      if parent.isNil then some (.error "could not find parent node")
      else
        let sibling := if parent.Left.ptrEq current then parent.Right else parent.Left
        let proof1 := if !sibling.isNil then proof ++ [sibling.Hash] else proof
        proofLoop root fuel parent proof1

/-- Function `GenerateMerkleProof` (merkle_tree.go, lines 92-127): the pair `(proof, error)` as
an `Except`; `fuel` bounds the number of iterations of the loop. -/
def MerkleTree.GenerateMerkleProof (H : String → String) (mt : MerkleTree) (fuel : Nat)
    (data : String) : Option (Except String (List String)) :=
  let node := findLeafNode H mt.Root data
  if node.isNil then some (.error "data not found in Merkle Tree")
  else proofLoop mt.Root fuel node []

/-- Function `VerifyMerkleProof` (merkle_tree.go, lines 169-184): the running digest is always
the left operand; the receiver is not read. -/
def MerkleTree.VerifyMerkleProof (H : String → String) (_mt : MerkleTree) (data : String)
    (proof : List String) (rootHash : String) : Bool :=
  let calculatedHash := proof.foldl (fun calculatedHash proofHash => H (calculatedHash ++ proofHash))
    (H data)
  calculatedHash == rootHash

/-! ## core/block.go -/

/-- Reduction of an integer to the range of a 64-bit signed `int`. -/
def wrapInt64 (n : Int) : Int :=
  (n + 9223372036854775808) % 18446744073709551616 - 9223372036854775808

/-- Go `a + b` on `int` values. -/
def intAdd (a b : Int) : Int := wrapInt64 (a + b)

/-- Go conversion `string(n)` of an integer: the UTF-8 text of code point `n`, and the
replacement character U+FFFD when `n` is not a valid code point. -/
def intToString (n : Int) : String :=
  if 0 ≤ n ∧ Nat.isValidChar n.toNat then String.singleton (Char.ofNat n.toNat)
  else String.singleton (Char.ofNat 0xFFFD)

/-- The struct `Block`. -/
structure Block where
  BlockNumber : Int
  Timestamp : Int
  PrevBlockHash : String
  Transactions : String
  Nonce : Int
  Hash : String
  deriving DecidableEq

/-- The string `record` hashed by `CalculateBlockHash`. -/
def Block.record (b : Block) : String :=
  intToString b.BlockNumber ++ intToString b.Timestamp ++ b.PrevBlockHash ++ b.Transactions ++
    intToString b.Nonce

/-- Function `CalculateBlockHash` (block.go, lines 33-39). -/
def Block.CalculateBlockHash (H : String → String) (b : Block) : String :=
  H b.record

/-- Function `NewBlock` (block.go, lines 20-30); `now` is the value of `time.Now().UnixNano()`. -/
def NewBlock (H : String → String) (now : Int) (blockNumber : Int) (prevBlockHash : String)
    (transactions : String) (nonce : Int) : Block :=
  let block : Block :=
    { BlockNumber := blockNumber, Timestamp := now, PrevBlockHash := prevBlockHash,
      Transactions := transactions, Nonce := nonce, Hash := "" }
  { block with Hash := block.CalculateBlockHash H }

/-! ## core/blockchain.go -/

/-- A Go `error` value: `nil`, or an error with its message. -/
inductive GoError where
  | nil : GoError
  | mk (msg : String) : GoError
  deriving DecidableEq

/-- The struct `Blockchain`. -/
structure Blockchain where
  Blocks : List Block
  deriving DecidableEq

/-- Function `createGenesisBlock` (blockchain.go, lines 21-26). -/
def createGenesisBlock (H : String → String) (now : Int) : Block :=
  NewBlock H now 0 "" "Genesis Block Transactions" 0

/-- Function `NewBlockchain` (blockchain.go, lines 13-18). -/
def NewBlockchain (H : String → String) (now : Int) : Blockchain :=
  { Blocks := [createGenesisBlock H now] }

/-- Function `GetLastBlock` (blockchain.go, lines 48-53); `none` is the nil pointer. -/
def Blockchain.GetLastBlock (bc : Blockchain) : Option Block :=
  if bc.Blocks.length = 0 then none else bc.Blocks.getLast?

/-- Message of the error returned on a wrong block number. -/
def blockNumberError (expected got : Int) : GoError :=
  .mk ("invalid block number. Expected: " ++ toString expected ++ ", got: " ++ toString got)

/-- Message of the error returned on a wrong previous-block hash. -/
def prevHashError (expected got : String) : GoError :=
  .mk ("invalid previous block hash. Expected: " ++ expected ++ ", got: " ++ got)

/-- Message of the error returned when the stored hash is not the recomputed hash. -/
def blockHashError : GoError :=
  .mk "invalid block hash. Calculated hash doesn't match block's hash."

/-- Function `AddBlock` (blockchain.go, lines 29-45): the ledger after the call and the returned
error; `none` when the tip is nil
(the dereference `lastBlock.BlockNumber` fails). -/
def Blockchain.AddBlock (H : String → String) (bc : Blockchain) (newBlock : Block) :
    Option (Blockchain × GoError) :=
  match bc.GetLastBlock with
  | none => none
  | some lastBlock =>
    if newBlock.BlockNumber ≠ intAdd lastBlock.BlockNumber 1 then
      some (bc, blockNumberError (intAdd lastBlock.BlockNumber 1) newBlock.BlockNumber)
    else if newBlock.PrevBlockHash ≠ lastBlock.Hash then
      some (bc, prevHashError lastBlock.Hash newBlock.PrevBlockHash)
    else if newBlock.CalculateBlockHash H ≠ newBlock.Hash then
      some (bc, blockHashError)
    else
      some ({ bc with Blocks := bc.Blocks ++ [newBlock] }, .nil)

/-- Function `IsBlockValid` (blockchain.go, lines 56-69); `none` when the tip is nil. -/
def Blockchain.IsBlockValid (H : String → String) (bc : Blockchain) (block : Block) :
    Option Bool :=
  match bc.GetLastBlock with
  | none => none
  | some lastBlock =>
    if block.BlockNumber ≠ intAdd lastBlock.BlockNumber 1 then some false
    else if block.PrevBlockHash ≠ lastBlock.Hash then some false
    else if block.CalculateBlockHash H ≠ block.Hash then some false
    else some true

/-- The loop `for i := 1; i < len(chain); i++` of `IsChainValid`, with `prevBlock = chain[i-1]`
and the blocks from `chain[i]` on. -/
def chainLoop (H : String → String) : Block → List Block → Bool
  | _, [] => true
  | prevBlock, currentBlock :: rest =>
    if currentBlock.BlockNumber ≠ intAdd prevBlock.BlockNumber 1 then false
    else if currentBlock.PrevBlockHash ≠ prevBlock.Hash then false
    else if currentBlock.CalculateBlockHash H ≠ currentBlock.Hash then false
    else chainLoop H currentBlock rest

/-- Function `IsChainValid` (blockchain.go, lines 83-114). -/
def IsChainValid (H : String → String) : List Block → Bool
  | [] => true
  | first :: rest =>
    if first.BlockNumber ≠ 0 then false
    else if first.PrevBlockHash ≠ "" then false
    else if first.CalculateBlockHash H ≠ first.Hash then false
    else chainLoop H first rest

/-- Function `ReplaceChain` (blockchain.go, lines 73-80): the ledger after the call. -/
def Blockchain.ReplaceChain (H : String → String) (bc : Blockchain) (newBlocks : List Block) :
    Blockchain :=
  if newBlocks.length > bc.Blocks.length ∧ IsChainValid H newBlocks = true then
    { bc with Blocks := newBlocks }
  else bc

/-- The three comparisons that `AddBlock`, `IsBlockValid` and the loop of `IsChainValid` make
between a block and its predecessor, all passing. -/
def passesChecks (H : String → String) (prev b : Block) : Prop :=
  b.BlockNumber = intAdd prev.BlockNumber 1 ∧ b.PrevBlockHash = prev.Hash ∧
    b.CalculateBlockHash H = b.Hash

/-- The three comparisons that `IsChainValid` makes on `chain[0]`, all passing. -/
def passesGenesisChecks (H : String → String) (g : Block) : Prop :=
  g.BlockNumber = 0 ∧ g.PrevBlockHash = "" ∧ g.CalculateBlockHash H = g.Hash

/-! ## Auxiliary definitions for the Merkle tree -/

/-- All nodes reachable from a pointer, the node itself first (preorder); none from `nil`. -/
def MerkleNode.subnodes : MerkleNode → List MerkleNode
  | .nil => []
  | .node a h l r d => .node a h l r d :: (l.subnodes ++ r.subnodes)

/-- Number of nodes on the longest downward path from a pointer (0 for `nil`). -/
def MerkleNode.height : MerkleNode → Nat
  | .nil => 0
  | .node _ _ l r _ => 1 + max l.height r.height

/-- The node allocated by one iteration of the pairing loop, for non-nil children. -/
def mkParent (H : String → String) (next : Nat) (leftNode rightNode : MerkleNode) : MerkleNode :=
  .node next (H (leftNode.Hash ++ rightNode.Hash)) leftNode rightNode ""

/-- The value of `pairNodes` on a list without nil elements (see `pairNodes_eq_parentsOf`). -/
def parentsOf (H : String → String) : Nat → List MerkleNode → List MerkleNode
  | _, [] => []
  | next, [leftNode] => [mkParent H next leftNode leftNode]
  | next, leftNode :: rightNode :: rest =>
    mkParent H next leftNode rightNode :: parentsOf H (next + 1) rest

/-- Reference level step, in the words of the specification: consecutive pairs
`(d[2k], d[2k+1])` go to `Hash(d[2k] ++ d[2k+1])`, and the last digest `x` of a level of odd
length goes to `Hash(x ++ x)`. -/
def nextLevel (H : String → String) : List String → List String
  | [] => []
  | [x] => [H (x ++ x)]
  | x :: y :: rest => H (x ++ y) :: nextLevel H rest

/-- Reference level fold, in the words of the specification: levels are folded until one has
exactly one digest, which is the root. -/
def levelFold (H : String → String) (level : List String) : String :=
  match level with
  | [] => ""
  | [d] => d
  | x :: y :: rest => levelFold H (nextLevel H (x :: y :: rest))
termination_by level.length
decreasing_by
  have key : ∀ n (l : List String), l.length ≤ n → (nextLevel H l).length ≤ l.length := by
    intro n
    induction n with
    | zero =>
      intro l hl
      have : l = [] := List.length_eq_zero.mp (by omega)
      subst this
      simp [nextLevel]
    | succ n ih =>
      intro l hl
      rcases l with _ | ⟨a, _ | ⟨b, tl⟩⟩
      · simp [nextLevel]
      · simp [nextLevel]
      · have := ih tl (by simp at hl; omega)
        simp [nextLevel]
        omega
  have := key rest.length rest (le_refl _)
  simp [nextLevel]
  omega

/-- Reference Merkle root of a data list: the level fold of the digests of the items. -/
def merkleRootRef (H : String → String) (dataList : List String) : String :=
  levelFold H (dataList.map H)

/-- The value of `convertDataListToNodes`, by recursion on the data list
(see `convertDataListToNodes_eq`). -/
def leafNodes (H : String → String) : Nat → List String → List MerkleNode
  | _, [] => []
  | next, data :: rest => .node next (H data) .nil .nil data :: leafNodes H (next + 1) rest

/-- Invariant of the list `nodes` handed to `buildMerkleTreeNodes` at each level, for the leaves
`leaves` the construction started from: the nodes are non-nil and were allocated consecutively
from address `lo`; every address below them is smaller than the next free address; equal
addresses mean equal nodes; all nodes of the level have height `k + 1`; every leaf is below
some node of the level; and the childless nodes below the level are leaves. -/
structure LevelInv (leaves : List MerkleNode) (lo : Nat) (nodes : List MerkleNode) (k : Nat) :
    Prop where
  nonnil : ∀ x ∈ nodes, x.isNil = false
  addrs : nodes.map MerkleNode.addr = List.range' lo nodes.length
  bound : ∀ x ∈ nodes, ∀ u ∈ x.subnodes, u.addr < lo + nodes.length
  uniq : ∀ x ∈ nodes, ∀ y ∈ nodes, ∀ u ∈ x.subnodes, ∀ v ∈ y.subnodes, u.addr = v.addr → u = v
  height_eq : ∀ x ∈ nodes, x.height = k + 1
  cover : ∀ u ∈ leaves, ∃ x ∈ nodes, u ∈ x.subnodes
  leafsrc : ∀ x ∈ nodes, ∀ u ∈ x.subnodes, u.Left.isNil = true → u.Right.isNil = true →
    u ∈ leaves

/-! ## Shape of the Merkle tree -/

/-- Shape of the nodes below a non-nil pointer: a node is either childless with digest
`Hash(Data)`, or has two children of the same height, both of this shape, and digest
`Hash(Left.Hash ++ Right.Hash)`. -/
def MerkleNode.Shaped (H : String → String) : MerkleNode → Prop
  | .nil => False
  | .node _ h l r d =>
    (l = .nil ∧ r = .nil ∧ h = H d) ∨
    (l.Shaped H ∧ r.Shaped H ∧ l.height = r.height ∧ h = H (l.Hash ++ r.Hash))

/-- Distinct nodes below a pointer have distinct addresses: two nodes below it with the same
address are the same node. -/
def MerkleNode.AddrUniq (root : MerkleNode) : Prop :=
  ∀ u ∈ root.subnodes, ∀ v ∈ root.subnodes, u.addr = v.addr → u = v

/-- The node reached from a pointer by following `Left` until there is no left child. -/
def MerkleNode.leftmost : MerkleNode → MerkleNode
  | .nil => .nil
  | .node a h l r d => if l.isNil then .node a h l r d else l.leftmost

/-- The nodes on the all-left path from a pointer, the pointer itself first. -/
def MerkleNode.leftSpine : MerkleNode → List MerkleNode
  | .nil => []
  | .node a h l r d => .node a h l r d :: l.leftSpine

/-- The digests of the right children along the all-left path, from the parent of the leftmost
leaf up to the node itself. -/
def MerkleNode.leftPathProof : MerkleNode → List String
  | .nil => []
  | .node _ _ l r _ => if l.isNil then [] else l.leftPathProof ++ [r.Hash]

/-- The data of the childless nodes below a pointer, read left to right (a node reached
twice is read twice). -/
def MerkleNode.leafData : MerkleNode → List String
  | .nil => []
  | .node _ _ l r d => if l.isNil && r.isNil then [d] else l.leafData ++ r.leafData

/-- The data of the childless nodes below a pointer, read left to right, where the right child
of a node is skipped when it is the same pointer as the left child. -/
def MerkleNode.leafDataOnce : MerkleNode → List String
  | .nil => []
  | .node _ _ l r d =>
    if l.isNil && r.isNil then [d]
    else if l.ptrEq r then l.leafDataOnce
    else l.leafDataOnce ++ r.leafDataOnce

/-- The strings `VerifyMerkleProof` passes to the digest function after the first one: each
`running ++ s`, in order, for the running digest `running`. -/
def verifySteps (H : String → String) : String → List String → List String
  | _, [] => []
  | running, s :: rest => (running ++ s) :: verifySteps H (H (running ++ s)) rest

/-- The strings `VerifyMerkleProof(data, proof, _)` passes to the digest function: `data`, then
each `running ++ s`. -/
def verifyInputs (H : String → String) (data : String) (proof : List String) : List String :=
  data :: verifySteps H (H data) proof

/-- The strings passed to the digest function when the nodes below a pointer were built: the
data of each childless node and `Left.Hash ++ Right.Hash` of each node with children. -/
def MerkleNode.hashInputs (root : MerkleNode) : List String :=
  root.subnodes.map (fun u => if u.Left.isNil && u.Right.isNil then u.Data
    else u.Left.Hash ++ u.Right.Hash)

/-- Invariant of the list `nodes` handed to `buildMerkleTreeNodes` at each level, for the data
list the construction started from: every node has the shape `Shaped`; the leaves below the
level, each read once, are the data list; read with repetitions they are the data list
followed by repeated items; and the leftmost leaf below the first node carries the digest of
the first item. -/
structure ShapeInv (H : String → String) (dataList : List String) (nodes : List MerkleNode) :
    Prop where
  shaped : ∀ x ∈ nodes, x.Shaped H
  once : nodes.flatMap MerkleNode.leafDataOnce = dataList
  all : ∃ extra, nodes.flatMap MerkleNode.leafData = dataList ++ extra ∧
    ∀ d ∈ extra, d ∈ dataList
  first : ∀ d0, dataList.head? = some d0 →
    ∃ x, nodes.head? = some x ∧ x.leftmost.Hash = H d0 ∧ x.leftmost.Data = d0

/-! ## The demonstrations of main.go -/

/-- The data list of `testMerkleTree` (main.go). -/
def demoDataList : List String := ["data1", "data2", "data3", "data4", "data5"]

/-- The tree `testMerkleTree` builds from `demoDataList`. -/
def demoTree : MerkleTree :=
  match NewMerkleTree calculateHash 5 demoDataList with
  | some (.ok t) => t
  | _ => { Root := .nil, LeafData := [] }

/-- The first check of `testMerkleTree` (main.go), for any data list and item: build the tree,
generate the proof of `testData`, verify it against the root of the tree.  `none` when a step
returns an error or does not return. -/
def proofRoundTrip (H : String → String) (fuel : Nat) (dataList : List String)
    (testData : String) : Option Bool :=
  match NewMerkleTree H fuel dataList with
  | some (.ok merkleTree) =>
    let rootHash := merkleTree.GetMerkleRoot
    match merkleTree.GenerateMerkleProof H fuel testData with
    | some (.ok proof) => some (merkleTree.VerifyMerkleProof H testData proof rootHash)
    | _ => none
  | _ => none

/-- A ledger as `mineNewBlock` grows it: the genesis block and two blocks added on top, each
made by `NewBlock` from the tip. -/
def demoGenesis : Block := createGenesisBlock calculateHash 1700000000000000000

/-- Block 1 of the demonstration ledger. -/
def demoBlock1 : Block :=
  NewBlock calculateHash 1700000001000000000 1 demoGenesis.Hash "alice pays bob 5" 7

/-- Block 2 of the demonstration ledger. -/
def demoBlock2 : Block :=
  NewBlock calculateHash 1700000002000000000 2 demoBlock1.Hash "bob pays carol 2" 9

/-- Block 1 with its timestamp changed by one nanosecond, every other field (the stored hash
included) untouched. -/
def demoBlock1Retimed : Block := { demoBlock1 with Timestamp := 1700000001000000001 }

/-! ## Ledger states and the tamper operation -/

/-- The ledger states reachable from `NewBlockchain()` by calls of `AddBlock` and `ReplaceChain`
with arbitrary arguments (a call of `AddBlock` that does not return has no successor state). -/
inductive Reachable (H : String → String) : Blockchain → Prop where
  | init (now : Int) : Reachable H (NewBlockchain H now)
  | addBlock {bc bc1 : Blockchain} {err : GoError} (newBlock : Block) :
      Reachable H bc → bc.AddBlock H newBlock = some (bc1, err) → Reachable H bc1
  | replaceChain {bc : Blockchain} (newBlocks : List Block) :
      Reachable H bc → Reachable H (bc.ReplaceChain H newBlocks)

/-- The two assignments of `tamperWithBlock` on the chosen block: the payload is replaced, then
the stored hash is set to the recomputed hash. -/
def tamperBlock (H : String → String) (tamperedBlock : Block) (newData : String) : Block :=
  let b1 : Block := { tamperedBlock with Transactions := newData }
  { b1 with Hash := b1.CalculateBlockHash H }

/-- Function `tamperWithBlock` (main.go, lines 88-116) on the ledger: `blockNumber` is the
number read from the input and `newData` the new payload; the ledger is returned unchanged
when there are not two blocks or when `blockNumber` is not in `1 .. len(Blocks) - 1`. -/
def tamperWithBlock (H : String → String) (blockchain : Blockchain) (blockNumber : Int)
    (newData : String) : Blockchain :=
  if blockchain.Blocks.length ≤ 1 then blockchain
  else if blockNumber ≤ 0 ∨ blockNumber ≥ blockchain.Blocks.length then blockchain
  else
    match blockchain.Blocks[blockNumber.toNat]? with
    | some tamperedBlock =>
      { blockchain with
        Blocks := blockchain.Blocks.set blockNumber.toNat (tamperBlock H tamperedBlock newData) }
    | none => blockchain

/-- The second check of `testMerkleTree` (main.go, lines 180-183), for any data list and
items: build the tree, generate the proof of `testData`, verify `invalidData` with that proof
against the root of the tree.  `none` when a step returns an error or does not return. -/
def wrongItemCheck (H : String → String) (fuel : Nat) (dataList : List String)
    (testData invalidData : String) : Option Bool :=
  match NewMerkleTree H fuel dataList with
  | some (.ok merkleTree) =>
    let rootHash := merkleTree.GetMerkleRoot
    match merkleTree.GenerateMerkleProof H fuel testData with
    | some (.ok proof) => some (merkleTree.VerifyMerkleProof H invalidData proof rootHash)
    | _ => none
  | _ => none

/-- The proof `testMerkleTree` generates for "data3". -/
def demoProof : List String :=
  match demoTree.GenerateMerkleProof calculateHash 5 "data3" with
  | some (.ok proof) => proof
  | _ => []

/-! ## Theorems -/

/-! ### Digest function: test vectors -/

set_option maxRecDepth 1000000 in
theorem calculateHash_test_vectors :
    calculateHash "" = "e3b0c44298fc1c149afbf4c8996fb92427ae41e4649b934ca495991b7852b855" ∧
    calculateHash "abc" = "ba7816bf8f01cfea414140de5dae2223b00361a396177a9cb410ff61f20015ad" ∧
    calculateHash "abcdbcdecdefdefgefghfghighijhijkijkljklmklmnlmnomnopnopq" =
      "248d6a61d20638b8e5c026930c3e6039a33ce45964ff2167f6ecedd419db06c1" := by
  decide

/-! ### Ledger -/

theorem chainLoop_iff_chain (H : String → String) (prev : Block) (rest : List Block) :
    chainLoop H prev rest = true ↔ List.Chain (passesChecks H) prev rest := by
  induction rest generalizing prev with
  | nil => simp [chainLoop]
  | cons c rest ih =>
    simp only [chainLoop, List.chain_cons, passesChecks]
    by_cases h1 : c.BlockNumber = intAdd prev.BlockNumber 1
    · by_cases h2 : c.PrevBlockHash = prev.Hash
      · by_cases h3 : c.CalculateBlockHash H = c.Hash
        · simp [h1, h2, h3, ih, passesChecks]
        · simp [h1, h2, h3]
      · simp [h1, h2]
    · simp [h1]

theorem IsChainValid_cons (H : String → String) (g : Block) (rest : List Block) :
    IsChainValid H (g :: rest) = true ↔
      passesGenesisChecks H g ∧ List.Chain (passesChecks H) g rest := by
  simp only [IsChainValid, passesGenesisChecks]
  by_cases h1 : g.BlockNumber = 0
  · by_cases h2 : g.PrevBlockHash = ""
    · by_cases h3 : g.CalculateBlockHash H = g.Hash
      · simp [h1, h2, h3, chainLoop_iff_chain]
      · simp [h1, h2, h3]
    · simp [h1, h2]
  · simp [h1]

theorem GetLastBlock_eq (bc : Blockchain) (hne : bc.Blocks ≠ []) :
    bc.GetLastBlock = some (bc.Blocks.getLast hne) := by
  unfold Blockchain.GetLastBlock
  have : bc.Blocks.length ≠ 0 := by simpa using hne
  simp [this, List.getLast?_eq_getLast _ hne]

theorem blockNumberError_ne_prevHashError (e g : Int) (e1 g1 : String) :
    blockNumberError e g ≠ prevHashError e1 g1 := by
  intro h
  simp only [blockNumberError, prevHashError, GoError.mk.injEq] at h
  have h2 := congrArg String.data h
  simp only [String.data_append] at h2
  have h3 := congrArg (fun l => l.get? 8) h2
  simp at h3

theorem blockNumberError_ne_blockHashError (e g : Int) :
    blockNumberError e g ≠ blockHashError := by
  intro h
  simp only [blockNumberError, blockHashError, GoError.mk.injEq] at h
  have h2 := congrArg String.data h
  simp only [String.data_append] at h2
  have h3 := congrArg (fun l => l.get? 14) h2
  simp at h3

theorem prevHashError_ne_blockHashError (e g : String) :
    prevHashError e g ≠ blockHashError := by
  intro h
  simp only [prevHashError, blockHashError, GoError.mk.injEq] at h
  have h2 := congrArg String.data h
  simp only [String.data_append] at h2
  have h3 := congrArg (fun l => l.get? 8) h2
  simp at h3

theorem AddBlock_eq (H : String → String) (bc : Blockchain) (tip c : Block)
    (htip : bc.Blocks.getLast? = some tip) :
    bc.AddBlock H c = some
      (if c.BlockNumber ≠ intAdd tip.BlockNumber 1 then
        (bc, blockNumberError (intAdd tip.BlockNumber 1) c.BlockNumber)
      else if c.PrevBlockHash ≠ tip.Hash then (bc, prevHashError tip.Hash c.PrevBlockHash)
      else if c.CalculateBlockHash H ≠ c.Hash then (bc, blockHashError)
      else ({ bc with Blocks := bc.Blocks ++ [c] }, GoError.nil)) := by
  have hne : bc.Blocks.length ≠ 0 := by
    intro h0
    have : bc.Blocks = [] := List.length_eq_zero.mp h0
    rw [this] at htip
    simp at htip
  unfold Blockchain.AddBlock Blockchain.GetLastBlock
  simp only [hne, if_false, htip]
  split_ifs <;> rfl

/-- C2: on a non-empty ledger with tip `tip`, `AddBlock` compares the block number with
`tip.BlockNumber + 1`, then the previous hash with `tip.Hash`, then the recomputed hash with the
stored hash, and returns the error of the first comparison that fails (block-number error,
previous-hash error, hash-mismatch error, three different errors); it returns `nil` exactly
when all three comparisons pass, and a block failing both the first and the second gets the
block-number error and not the previous-hash error. -/
theorem AddBlock_checks_in_order (H : String → String) (bc : Blockchain) (tip c : Block)
    (htip : bc.Blocks.getLast? = some tip) :
    ∃ bc1 err, bc.AddBlock H c = some (bc1, err) ∧
      (c.BlockNumber ≠ intAdd tip.BlockNumber 1 →
        err = blockNumberError (intAdd tip.BlockNumber 1) c.BlockNumber) ∧
      (c.BlockNumber = intAdd tip.BlockNumber 1 → c.PrevBlockHash ≠ tip.Hash →
        err = prevHashError tip.Hash c.PrevBlockHash) ∧
      (c.BlockNumber = intAdd tip.BlockNumber 1 → c.PrevBlockHash = tip.Hash →
        c.CalculateBlockHash H ≠ c.Hash → err = blockHashError) ∧
      (err = GoError.nil ↔
        (c.BlockNumber = intAdd tip.BlockNumber 1 ∧ c.PrevBlockHash = tip.Hash ∧
          c.CalculateBlockHash H = c.Hash)) ∧
      (c.BlockNumber ≠ intAdd tip.BlockNumber 1 → c.PrevBlockHash ≠ tip.Hash →
        err ≠ prevHashError tip.Hash c.PrevBlockHash) ∧
      (∀ e g e1 g1, blockNumberError e g ≠ prevHashError e1 g1 ∧
        blockNumberError e g ≠ blockHashError ∧ prevHashError e1 g1 ≠ blockHashError ∧
        blockNumberError e g ≠ GoError.nil ∧ prevHashError e1 g1 ≠ GoError.nil ∧
        blockHashError ≠ GoError.nil) := by
  rw [AddBlock_eq H bc tip c htip]
  have hd : ∀ e g e1 g1, blockNumberError e g ≠ prevHashError e1 g1 ∧
      blockNumberError e g ≠ blockHashError ∧ prevHashError e1 g1 ≠ blockHashError ∧
      blockNumberError e g ≠ GoError.nil ∧ prevHashError e1 g1 ≠ GoError.nil ∧
      blockHashError ≠ GoError.nil := fun e g e1 g1 =>
    ⟨blockNumberError_ne_prevHashError e g e1 g1, blockNumberError_ne_blockHashError e g,
      prevHashError_ne_blockHashError e1 g1, by simp [blockNumberError],
      by simp [prevHashError], by simp [blockHashError]⟩
  by_cases h1 : c.BlockNumber = intAdd tip.BlockNumber 1
  · by_cases h2 : c.PrevBlockHash = tip.Hash
    · by_cases h3 : c.CalculateBlockHash H = c.Hash
      · rw [if_neg (by simp [h1]), if_neg (by simp [h2]), if_neg (by simp [h3])]
        exact ⟨_, _, rfl, by simp [h1], by simp [h2], by simp [h3], by simp [h1, h2, h3],
          by simp [h1], hd⟩
      · rw [if_neg (by simp [h1]), if_neg (by simp [h2]), if_pos h3]
        refine ⟨_, _, rfl, by simp [h1], by simp [h2], by simp, ?_, by simp [h1], hd⟩
        simp [h3, blockHashError]
    · rw [if_neg (by simp [h1]), if_pos h2]
      refine ⟨_, _, rfl, by simp [h1], by simp, by simp [h2], ?_, by simp [h1], hd⟩
      simp [h2, prevHashError]
  · rw [if_pos h1]
    refine ⟨_, _, rfl, by simp, by simp [h1], by simp [h1], ?_, ?_, hd⟩
    · simp [h1, blockNumberError]
    · intro _ _
      exact blockNumberError_ne_prevHashError _ _ _ _

/-- Witness of `AddBlock_checks_in_order`: the ledger holding one genesis block, and a
candidate with block number 4 and a foreign previous hash. -/
theorem AddBlock_checks_in_order_witness :
    (NewBlockchain calculateHash 1700000000000000000).Blocks.getLast? =
        some (createGenesisBlock calculateHash 1700000000000000000) ∧
    ∃ bc1 err,
      (NewBlockchain calculateHash 1700000000000000000).AddBlock calculateHash
        (NewBlock calculateHash 1700000000000000001 4 "00" "tx" 0) = some (bc1, err) ∧
      err = blockNumberError 1 4 := by
  refine ⟨rfl, ?_⟩
  obtain ⟨bc1, err, h, h1, _⟩ := AddBlock_checks_in_order calculateHash
    (NewBlockchain calculateHash 1700000000000000000)
    (createGenesisBlock calculateHash 1700000000000000000)
    (NewBlock calculateHash 1700000000000000001 4 "00" "tx" 0) rfl
  exact ⟨bc1, err, h, h1 (by decide)⟩

/-- C3: on a non-empty ledger with block list `bs`, a successful `AddBlock(c)` leaves the block
list `bs ++ [c]` (length one more, every earlier index holding the same block), and an
`AddBlock(c)` that returns an error leaves the block list `bs`. -/
theorem AddBlock_appends_or_keeps (H : String → String) (bc : Blockchain) (c : Block)
    (hne : bc.Blocks ≠ []) :
    ∃ bc1 err, bc.AddBlock H c = some (bc1, err) ∧
      (err = GoError.nil → bc1.Blocks = bc.Blocks ++ [c] ∧
        bc1.Blocks.length = bc.Blocks.length + 1 ∧
        ∀ i, i < bc.Blocks.length → bc1.Blocks[i]? = bc.Blocks[i]?) ∧
      (err ≠ GoError.nil → bc1.Blocks = bc.Blocks) := by
  have htip : bc.Blocks.getLast? = some (bc.Blocks.getLast hne) :=
    List.getLast?_eq_getLast _ hne
  rw [AddBlock_eq H bc _ c htip]
  split_ifs with h1 h2 h3
  · exact ⟨_, _, rfl, by simp [blockNumberError], fun _ => rfl⟩
  · exact ⟨_, _, rfl, by simp [prevHashError], fun _ => rfl⟩
  · exact ⟨_, _, rfl, by simp [blockHashError], fun _ => rfl⟩
  · refine ⟨_, _, rfl, fun _ => ⟨rfl, by simp, fun i hi => ?_⟩, by simp⟩
    simp [List.getElem?_append_left hi]

/-- Witness of `AddBlock_appends_or_keeps`: the ledger holding one genesis block. -/
theorem AddBlock_appends_or_keeps_witness :
    (NewBlockchain calculateHash 1700000000000000000).Blocks ≠ [] ∧
    ∃ bc1 err,
      (NewBlockchain calculateHash 1700000000000000000).AddBlock calculateHash
        (NewBlock calculateHash 1700000000000000001 4 "00" "tx" 0) = some (bc1, err) ∧
      (err = GoError.nil →
        bc1.Blocks = (NewBlockchain calculateHash 1700000000000000000).Blocks ++
          [NewBlock calculateHash 1700000000000000001 4 "00" "tx" 0]) ∧
      (err ≠ GoError.nil →
        bc1.Blocks = (NewBlockchain calculateHash 1700000000000000000).Blocks) := by
  refine ⟨by simp [NewBlockchain], ?_⟩
  obtain ⟨bc1, err, h, h1, h2⟩ := AddBlock_appends_or_keeps calculateHash
    (NewBlockchain calculateHash 1700000000000000000)
    (NewBlock calculateHash 1700000000000000001 4 "00" "tx" 0) (by simp [NewBlockchain])
  exact ⟨bc1, err, h, fun he => (h1 he).1, h2⟩

/-- C4: after `ReplaceChain(cand)` the block list is `cand` when `cand` is strictly longer than
the current list and `IsChainValid(cand)` holds, and is the current list otherwise; a longer
invalid candidate, an equally long candidate and a shorter candidate leave it unchanged. -/
theorem ReplaceChain_spec (H : String → String) (bc : Blockchain) (cand : List Block) :
    (cand.length > bc.Blocks.length ∧ IsChainValid H cand = true →
      (bc.ReplaceChain H cand).Blocks = cand) ∧
    (¬ (cand.length > bc.Blocks.length ∧ IsChainValid H cand = true) →
      bc.ReplaceChain H cand = bc) ∧
    (cand.length > bc.Blocks.length → IsChainValid H cand = false →
      (bc.ReplaceChain H cand).Blocks = bc.Blocks) ∧
    (cand.length = bc.Blocks.length → (bc.ReplaceChain H cand).Blocks = bc.Blocks) ∧
    (cand.length < bc.Blocks.length → (bc.ReplaceChain H cand).Blocks = bc.Blocks) := by
  unfold Blockchain.ReplaceChain
  refine ⟨fun h => by simp [h], fun h => by simp [h], fun h1 h2 => by simp [h2],
    fun h => by simp [h], fun h => ?_⟩
  have : ¬ cand.length > bc.Blocks.length := by omega
  simp [this]

theorem chain_iff_getElem? {α : Type} (R : α → α → Prop) (a : α) (l : List α) :
    List.Chain R a l ↔
      ∀ i p c, (a :: l)[i]? = some p → (a :: l)[i + 1]? = some c → R p c := by
  induction l generalizing a with
  | nil =>
    simp
  | cons b l ih =>
    rw [List.chain_cons, ih]
    constructor
    · rintro ⟨hab, hrest⟩ i p c hp hc
      cases i with
      | zero =>
        simp at hp hc
        subst hp hc
        exact hab
      | succ j =>
        exact hrest j p c (by simpa using hp) (by simpa using hc)
    · intro h
      refine ⟨h 0 a b (by simp) (by simp), fun i p c hp hc => h (i + 1) p c ?_ ?_⟩
      · simpa using hp
      · simpa using hc

theorem chain_append_singleton {α : Type} (R : α → α → Prop) (a : α) (l : List α) (b : α) :
    List.Chain R a (l ++ [b]) ↔ List.Chain R a l ∧ R ((a :: l).getLast (by simp)) b := by
  induction l generalizing a with
  | nil => simp
  | cons x l ih =>
    simp only [List.cons_append, List.chain_cons, ih]
    rw [List.getLast_cons (by simp : x :: l ≠ [])]
    tauto

/-- C5: `IsChainValid(chain)` is true exactly when the chain is empty, or `chain[0]` has block
number 0, an empty previous hash and a stored hash equal to its recomputed hash, and every
block `chain[i]` with `1 <= i` has block number `chain[i-1].BlockNumber + 1`, previous hash
`chain[i-1].Hash` and a stored hash equal to its recomputed hash.  Equivalently, for a non-empty
`bs`, `IsChainValid(bs ++ [b])` holds exactly when `IsChainValid(bs)` holds and `b` passes the
three comparisons of `AddBlock` against the last block of `bs`. -/
theorem IsChainValid_iff (H : String → String) :
    (∀ chain : List Block, IsChainValid H chain = true ↔
      (chain = [] ∨
        ((∃ g, chain[0]? = some g ∧ g.BlockNumber = 0 ∧ g.PrevBlockHash = "" ∧
            g.CalculateBlockHash H = g.Hash) ∧
          ∀ i, 1 ≤ i → ∀ p c, chain[i - 1]? = some p → chain[i]? = some c →
            (c.BlockNumber = intAdd p.BlockNumber 1 ∧ c.PrevBlockHash = p.Hash ∧
              c.CalculateBlockHash H = c.Hash)))) ∧
    (∀ (bs : List Block) (tip b : Block), bs.getLast? = some tip →
      (IsChainValid H (bs ++ [b]) = true ↔
        (IsChainValid H bs = true ∧
          (b.BlockNumber = intAdd tip.BlockNumber 1 ∧ b.PrevBlockHash = tip.Hash ∧
            b.CalculateBlockHash H = b.Hash)))) := by
  constructor
  · intro chain
    cases chain with
    | nil => simp [IsChainValid]
    | cons g rest =>
      rw [IsChainValid_cons, chain_iff_getElem?]
      simp only [List.cons_ne_nil, false_or, passesGenesisChecks, passesChecks]
      constructor
      · rintro ⟨hg, hrest⟩
        refine ⟨⟨g, by simp, hg⟩, fun i hi p c hp hc => ?_⟩
        obtain ⟨j, rfl⟩ : ∃ j, i = j + 1 := ⟨i - 1, by omega⟩
        exact hrest j p c (by simpa using hp) hc
      · rintro ⟨⟨g1, hg1, hg⟩, hrest⟩
        have : g1 = g := by simpa using hg1.symm
        subst this
        exact ⟨hg, fun i p c hp hc => hrest (i + 1) (by omega) p c (by simpa using hp) hc⟩
  · intro bs tip b htip
    cases bs with
    | nil => simp at htip
    | cons g rest =>
      have hl : (g :: rest).getLast (by simp) = tip := by
        have := List.getLast?_eq_getLast (g :: rest) (by simp)
        rw [htip] at this
        exact (Option.some.inj this).symm
      rw [List.cons_append, IsChainValid_cons, IsChainValid_cons, chain_append_singleton, hl]
      simp only [passesChecks]
      tauto

/-- Witness of `IsChainValid_iff`: the second part at the one-block chain of a new ledger. -/
theorem IsChainValid_iff_witness :
    [createGenesisBlock calculateHash 1700000000000000000].getLast? =
        some (createGenesisBlock calculateHash 1700000000000000000) ∧
    (IsChainValid calculateHash ([createGenesisBlock calculateHash 1700000000000000000] ++
        [NewBlock calculateHash 1700000000000000001 4 "00" "tx" 0]) = true ↔
      (IsChainValid calculateHash [createGenesisBlock calculateHash 1700000000000000000] = true ∧
        ((NewBlock calculateHash 1700000000000000001 4 "00" "tx" 0).BlockNumber =
            intAdd (createGenesisBlock calculateHash 1700000000000000000).BlockNumber 1 ∧
          (NewBlock calculateHash 1700000000000000001 4 "00" "tx" 0).PrevBlockHash =
            (createGenesisBlock calculateHash 1700000000000000000).Hash ∧
          (NewBlock calculateHash 1700000000000000001 4 "00" "tx" 0).CalculateBlockHash
              calculateHash =
            (NewBlock calculateHash 1700000000000000001 4 "00" "tx" 0).Hash))) :=
  ⟨rfl, (IsChainValid_iff calculateHash).2 _ _ _ rfl⟩

/-! ### Merkle proofs: verification -/

/-- C9: `VerifyMerkleProof(item, proof, claimedRoot)` is true exactly when `claimedRoot` is the
left fold over `proof` of `(running, s) -> Hash(running ++ s)` started from `Hash(item)`, the
running value on the left; the result is the same on every tree, and with an empty proof it is
`Hash(item) = claimedRoot`. -/
theorem VerifyMerkleProof_iff_fold (H : String → String) (mt : MerkleTree) (item : String)
    (proof : List String) (claimedRoot : String) :
    (mt.VerifyMerkleProof H item proof claimedRoot = true ↔
      claimedRoot = proof.foldl (fun running s => H (running ++ s)) (H item)) ∧
    (∀ mt1 : MerkleTree, mt1.VerifyMerkleProof H item proof claimedRoot =
      mt.VerifyMerkleProof H item proof claimedRoot) ∧
    (mt.VerifyMerkleProof H item [] claimedRoot = true ↔ H item = claimedRoot) := by
  refine ⟨?_, fun _ => rfl, ?_⟩
  · simp only [MerkleTree.VerifyMerkleProof, beq_iff_eq]
    exact eq_comm
  · simp [MerkleTree.VerifyMerkleProof]

/-! ### Merkle tree: construction -/

theorem two_step_induction {α : Type} {P : List α → Prop} (h0 : P []) (h1 : ∀ a, P [a])
    (h2 : ∀ a b l, P l → P (a :: b :: l)) : ∀ l, P l := by
  have key : ∀ l, P l ∧ ∀ a, P (a :: l) := by
    intro l
    induction l with
    | nil => exact ⟨h0, h1⟩
    | cons b l ih => exact ⟨ih.2 b, fun a => h2 a b l ih.1⟩
  exact fun l => (key l).1

theorem convertDataListToNodes_foldl (H : String → String) (next : Nat) (l : List String)
    (acc : List MerkleNode) :
    l.foldl (fun nodes data =>
        nodes ++ [MerkleNode.node (next + nodes.length) (H data) .nil .nil data]) acc =
      acc ++ leafNodes H (next + acc.length) l := by
  induction l generalizing acc with
  | nil => simp [leafNodes]
  | cons d l ih =>
    rw [List.foldl_cons, ih]
    simp [leafNodes, Nat.add_assoc]

theorem convertDataListToNodes_eq (H : String → String) (next : Nat) (l : List String) :
    convertDataListToNodes H next l = leafNodes H next l := by
  unfold convertDataListToNodes
  rw [convertDataListToNodes_foldl]
  simp

theorem leafNodes_length (H : String → String) (next : Nat) (l : List String) :
    (leafNodes H next l).length = l.length := by
  induction l generalizing next with
  | nil => rfl
  | cons d l ih => simp [leafNodes, ih]

theorem leafNodes_addrs (H : String → String) (next : Nat) (l : List String) :
    (leafNodes H next l).map MerkleNode.addr = List.range' next l.length := by
  induction l generalizing next with
  | nil => rfl
  | cons d l ih => simp [leafNodes, ih, MerkleNode.addr, List.range'_succ]

theorem leafNodes_hash (H : String → String) (next : Nat) (l : List String) :
    (leafNodes H next l).map MerkleNode.Hash = l.map H := by
  induction l generalizing next with
  | nil => rfl
  | cons d l ih => simp [leafNodes, ih, MerkleNode.Hash]

theorem mem_leafNodes (H : String → String) (next : Nat) (l : List String) (u : MerkleNode)
    (hu : u ∈ leafNodes H next l) : ∃ a d, d ∈ l ∧ u = .node a (H d) .nil .nil d := by
  induction l generalizing next with
  | nil => simp [leafNodes] at hu
  | cons d l ih =>
    simp only [leafNodes, List.mem_cons] at hu
    rcases hu with h | h
    · exact ⟨next, d, by simp, h⟩
    · obtain ⟨a, e, he, hu⟩ := ih (next + 1) h
      exact ⟨a, e, by simp [he], hu⟩

theorem leafNodes_of_mem (H : String → String) (next : Nat) (l : List String) (d : String)
    (hd : d ∈ l) : ∃ a, MerkleNode.node a (H d) .nil .nil d ∈ leafNodes H next l := by
  induction l generalizing next with
  | nil => simp at hd
  | cons e l ih =>
    rcases List.mem_cons.mp hd with h | h
    · subst h
      exact ⟨next, by simp [leafNodes]⟩
    · obtain ⟨a, ha⟩ := ih (next + 1) h
      exact ⟨a, by simp [leafNodes, ha]⟩

theorem subnodes_not_nil (x u : MerkleNode) (hu : u ∈ x.subnodes) : u.isNil = false := by
  induction x with
  | nil => simp [MerkleNode.subnodes] at hu
  | node a h l r d ihl ihr =>
    simp only [MerkleNode.subnodes, List.mem_cons, List.mem_append] at hu
    rcases hu with rfl | hu | hu
    · rfl
    · exact ihl hu
    · exact ihr hu

theorem subnodes_self (x : MerkleNode) (hx : x.isNil = false) : x ∈ x.subnodes := by
  cases x with
  | nil => simp [MerkleNode.isNil] at hx
  | node a h l r d => simp [MerkleNode.subnodes]

theorem subnodes_trans (u x y : MerkleNode) (hu : u ∈ x.subnodes) (hx : x ∈ y.subnodes) :
    u ∈ y.subnodes := by
  induction y with
  | nil => simp [MerkleNode.subnodes] at hx
  | node a h l r d ihl ihr =>
    simp only [MerkleNode.subnodes, List.mem_cons, List.mem_append] at hx ⊢
    rcases hx with rfl | hx | hx
    · simpa only [MerkleNode.subnodes, List.mem_cons, List.mem_append] using hu
    · exact Or.inr (Or.inl (ihl hx))
    · exact Or.inr (Or.inr (ihr hx))

theorem height_le_of_mem_subnodes (x u : MerkleNode) (hu : u ∈ x.subnodes) :
    u.height ≤ x.height := by
  induction x with
  | nil => simp [MerkleNode.subnodes] at hu
  | node a h l r d ihl ihr =>
    simp only [MerkleNode.subnodes, List.mem_cons, List.mem_append] at hu
    rcases hu with rfl | hu | hu
    · exact le_refl _
    · have := ihl hu
      simp only [MerkleNode.height]
      omega
    · have := ihr hu
      simp only [MerkleNode.height]
      omega

theorem mem_subnodes_mkParent (H : String → String) (a : Nat) (l r u : MerkleNode) :
    u ∈ (mkParent H a l r).subnodes ↔
      u = mkParent H a l r ∨ u ∈ l.subnodes ∨ u ∈ r.subnodes := by
  simp [mkParent, MerkleNode.subnodes]

theorem pairNodes_eq_parentsOf (H : String → String) (nodes : List MerkleNode) :
    ∀ next, (∀ x ∈ nodes, x.isNil = false) →
      pairNodes H next nodes = some (parentsOf H next nodes) := by
  induction nodes using two_step_induction with
  | h0 => intro next _; rfl
  | h1 a =>
    intro next h
    cases a with
    | nil => simp [MerkleNode.isNil] at h
    | node _ _ _ _ _ => rfl
  | h2 a b l ih =>
    intro next h
    have ha := h a (by simp)
    have hb := h b (by simp)
    cases a with
    | nil => simp [MerkleNode.isNil] at ha
    | node _ _ _ _ _ =>
      cases b with
      | nil => simp [MerkleNode.isNil] at hb
      | node _ _ _ _ _ =>
        have := ih (next + 1) (fun x hx => h x (by simp [hx]))
        simp [pairNodes, parentsOf, this, mkParent, MerkleNode.Hash]

theorem parentsOf_length (H : String → String) (nodes : List MerkleNode) :
    ∀ next, (parentsOf H next nodes).length = (nodes.length + 1) / 2 := by
  induction nodes using two_step_induction with
  | h0 => intro next; rfl
  | h1 a => intro next; simp [parentsOf]
  | h2 a b l ih =>
    intro next
    simp only [parentsOf, List.length_cons, ih]
    omega

theorem parentsOf_addrs (H : String → String) (nodes : List MerkleNode) :
    ∀ next, (parentsOf H next nodes).map MerkleNode.addr =
      List.range' next ((nodes.length + 1) / 2) := by
  induction nodes using two_step_induction with
  | h0 => intro next; rfl
  | h1 a => intro next; simp [parentsOf, mkParent, MerkleNode.addr]
  | h2 a b l ih =>
    intro next
    have e : (l.length + 1 + 1 + 1) / 2 = (l.length + 1) / 2 + 1 := by omega
    simp only [parentsOf, List.length_cons, List.map_cons, ih, e, List.range'_succ]
    rfl

theorem parentsOf_mem (H : String → String) (nodes : List MerkleNode) :
    ∀ next, ∀ p ∈ parentsOf H next nodes,
      ∃ a l r, p = mkParent H a l r ∧ l ∈ nodes ∧ r ∈ nodes := by
  induction nodes using two_step_induction with
  | h0 => intro next p hp; simp [parentsOf] at hp
  | h1 a =>
    intro next p hp
    simp only [parentsOf, List.mem_singleton] at hp
    exact ⟨next, a, a, hp, by simp, by simp⟩
  | h2 a b l ih =>
    intro next p hp
    simp only [parentsOf, List.mem_cons] at hp
    rcases hp with hp | hp
    · exact ⟨next, a, b, hp, by simp, by simp⟩
    · obtain ⟨c, x, y, hp, hx, hy⟩ := ih (next + 1) p hp
      exact ⟨c, x, y, hp, by simp [hx], by simp [hy]⟩

theorem parentsOf_cover (H : String → String) (nodes : List MerkleNode) :
    ∀ next, ∀ x ∈ nodes, ∃ p ∈ parentsOf H next nodes, ∃ a l r,
      p = mkParent H a l r ∧ (x = l ∨ x = r) := by
  induction nodes using two_step_induction with
  | h0 => intro next x hx; simp at hx
  | h1 a =>
    intro next x hx
    simp only [List.mem_singleton] at hx
    subst hx
    exact ⟨_, by simp [parentsOf], next, x, x, rfl, Or.inl rfl⟩
  | h2 a b l ih =>
    intro next x hx
    simp only [List.mem_cons] at hx
    rcases hx with rfl | rfl | hx
    · exact ⟨_, by simp [parentsOf], next, x, b, rfl, Or.inl rfl⟩
    · exact ⟨_, by simp [parentsOf], next, a, x, rfl, Or.inr rfl⟩
    · obtain ⟨p, hp, c, y, z, e, h⟩ := ih (next + 1) x hx
      exact ⟨p, by simp [parentsOf, hp], c, y, z, e, h⟩

theorem parentsOf_hash (H : String → String) (nodes : List MerkleNode) :
    ∀ next, (parentsOf H next nodes).map MerkleNode.Hash =
      nextLevel H (nodes.map MerkleNode.Hash) := by
  induction nodes using two_step_induction with
  | h0 => intro next; rfl
  | h1 a => intro next; rfl
  | h2 a b l ih =>
    intro next
    simp [parentsOf, nextLevel, ih, mkParent, MerkleNode.Hash]

theorem addr_range_of_mem {nodes : List MerkleNode} {lo n : Nat}
    (h : nodes.map MerkleNode.addr = List.range' lo n) {x : MerkleNode} (hx : x ∈ nodes) :
    lo ≤ x.addr ∧ x.addr < lo + n := by
  have : x.addr ∈ nodes.map MerkleNode.addr := List.mem_map_of_mem _ hx
  rw [h] at this
  exact List.mem_range'_1.mp this

theorem eq_of_addr_eq {nodes : List MerkleNode} {lo n : Nat}
    (h : nodes.map MerkleNode.addr = List.range' lo n) {x y : MerkleNode} (hx : x ∈ nodes)
    (hy : y ∈ nodes) (e : x.addr = y.addr) : x = y := by
  have hnd : (nodes.map MerkleNode.addr).Nodup := by
    rw [h]
    exact List.nodup_range' lo n
  exact List.inj_on_of_nodup_map hnd hx hy e

theorem LevelInv.ofLeaves (H : String → String) (lo : Nat) (l : List String) :
    LevelInv (leafNodes H lo l) lo (leafNodes H lo l) 0 := by
  have haddrs : (leafNodes H lo l).map MerkleNode.addr =
      List.range' lo (leafNodes H lo l).length := by
    rw [leafNodes_addrs, leafNodes_length]
  have hsub : ∀ x ∈ leafNodes H lo l, ∀ u ∈ x.subnodes, u = x := by
    intro x hx u hu
    obtain ⟨a, d, _, rfl⟩ := mem_leafNodes H lo l x hx
    simpa [MerkleNode.subnodes] using hu
  refine ⟨?_, haddrs, ?_, ?_, ?_, ?_, ?_⟩
  · intro x hx
    obtain ⟨a, d, _, rfl⟩ := mem_leafNodes H lo l x hx
    rfl
  · intro x hx u hu
    rw [hsub x hx u hu]
    exact (addr_range_of_mem haddrs hx).2
  · intro x hx y hy u hu v hv e
    rw [hsub x hx u hu] at e ⊢
    rw [hsub y hy v hv] at e ⊢
    exact eq_of_addr_eq haddrs hx hy e
  · intro x hx
    obtain ⟨a, d, _, rfl⟩ := mem_leafNodes H lo l x hx
    simp [MerkleNode.height]
  · intro u hu
    refine ⟨u, hu, subnodes_self u ?_⟩
    obtain ⟨a, d, _, rfl⟩ := mem_leafNodes H lo l u hu
    rfl
  · intro x hx u hu _ _
    rw [hsub x hx u hu]
    exact hx

theorem LevelInv.step (H : String → String) {leaves nodes : List MerkleNode} {lo k : Nat}
    (inv : LevelInv leaves lo nodes k) :
    LevelInv leaves (lo + nodes.length) (parentsOf H (lo + nodes.length) nodes) (k + 1) := by
  have haddrs : (parentsOf H (lo + nodes.length) nodes).map MerkleNode.addr =
      List.range' (lo + nodes.length) (parentsOf H (lo + nodes.length) nodes).length := by
    rw [parentsOf_addrs, parentsOf_length]
  have hold : ∀ x ∈ nodes, ∀ u ∈ x.subnodes, u.addr < lo + nodes.length := inv.bound
  have hcases : ∀ p ∈ parentsOf H (lo + nodes.length) nodes, ∀ u ∈ p.subnodes,
      u = p ∨ ∃ x ∈ nodes, u ∈ x.subnodes := by
    intro p hp u hu
    obtain ⟨a, l, r, rfl, hl, hr⟩ := parentsOf_mem H nodes _ p hp
    rcases (mem_subnodes_mkParent H a l r u).mp hu with h | h | h
    · exact Or.inl h
    · exact Or.inr ⟨l, hl, h⟩
    · exact Or.inr ⟨r, hr, h⟩
  refine ⟨?_, haddrs, ?_, ?_, ?_, ?_, ?_⟩
  · intro p hp
    obtain ⟨a, l, r, rfl, _, _⟩ := parentsOf_mem H nodes _ p hp
    rfl
  · intro p hp u hu
    rcases hcases p hp u hu with rfl | ⟨x, hx, hux⟩
    · exact (addr_range_of_mem haddrs hp).2
    · have := hold x hx u hux
      omega
  · intro p hp q hq u hu v hv e
    rcases hcases p hp u hu with rfl | ⟨x, hx, hux⟩
    · rcases hcases q hq v hv with rfl | ⟨y, hy, hvy⟩
      · exact eq_of_addr_eq haddrs hp hq e
      · have h1 := (addr_range_of_mem haddrs hp).1
        have h2 := hold y hy v hvy
        omega
    · rcases hcases q hq v hv with rfl | ⟨y, hy, hvy⟩
      · have h1 := (addr_range_of_mem haddrs hq).1
        have h2 := hold x hx u hux
        omega
      · exact inv.uniq x hx y hy u hux v hvy e
  · intro p hp
    obtain ⟨a, l, r, rfl, hl, hr⟩ := parentsOf_mem H nodes _ p hp
    simp [mkParent, MerkleNode.height, inv.height_eq l hl, inv.height_eq r hr]
    omega
  · intro u hu
    obtain ⟨x, hx, hux⟩ := inv.cover u hu
    obtain ⟨p, hp, a, l, r, rfl, h⟩ := parentsOf_cover H nodes (lo + nodes.length) x hx
    refine ⟨_, hp, (mem_subnodes_mkParent H a l r u).mpr ?_⟩
    rcases h with rfl | rfl
    · exact Or.inr (Or.inl hux)
    · exact Or.inr (Or.inr hux)
  · intro p hp u hu hl0 hr0
    rcases hcases p hp u hu with rfl | ⟨x, hx, hux⟩
    · obtain ⟨a, l, r, rfl, hl, _⟩ := parentsOf_mem H nodes _ u hp
      have := inv.nonnil l hl
      simp [mkParent, MerkleNode.Left, this] at hl0
    · exact inv.leafsrc x hx u hux hl0 hr0

theorem buildMerkleTreeNodes_nil (H : String → String) (fuel next : Nat) :
    buildMerkleTreeNodes H fuel next [] = none := by
  induction fuel generalizing next with
  | zero => rfl
  | succ fuel ih => simp [buildMerkleTreeNodes, pairNodes, ih]

theorem buildMerkleTreeNodes_spec (H : String → String) (leaves : List MerkleNode) :
    ∀ (fuel lo : Nat) (nodes : List MerkleNode) (k : Nat), LevelInv leaves lo nodes k →
      nodes ≠ [] → nodes.length ≤ fuel →
      ∃ root lo1 k1, buildMerkleTreeNodes H fuel (lo + nodes.length) nodes = some root ∧
        LevelInv leaves lo1 [root] k1 ∧ k1 + 1 ≤ k + nodes.length ∧
        root.Hash = levelFold H (nodes.map MerkleNode.Hash) := by
  intro fuel
  induction fuel with
  | zero =>
    intro lo nodes k _ hne hlen
    exact absurd (List.length_eq_zero.mp (Nat.le_zero.mp hlen)) hne
  | succ fuel ih =>
    intro lo nodes k inv hne hlen
    rcases nodes with _ | ⟨x, _ | ⟨y, rest⟩⟩
    · exact absurd rfl hne
    · exact ⟨x, lo, k, by simp [buildMerkleTreeNodes], inv, by simp, by simp [levelFold]⟩
    · have hp := pairNodes_eq_parentsOf H (x :: y :: rest) (lo + (x :: y :: rest).length)
        inv.nonnil
      have hlenp := parentsOf_length H (x :: y :: rest) (lo + (x :: y :: rest).length)
      have hne1 : parentsOf H (lo + (x :: y :: rest).length) (x :: y :: rest) ≠ [] := by
        simp [parentsOf]
      have hlenp1 : (parentsOf H (lo + (x :: y :: rest).length) (x :: y :: rest)).length + 1 ≤
          (x :: y :: rest).length := by
        rw [hlenp]
        simp only [List.length_cons]
        omega
      obtain ⟨root, lo1, k1, hb, hinv, hk, hh⟩ := ih (lo + (x :: y :: rest).length)
        (parentsOf H (lo + (x :: y :: rest).length) (x :: y :: rest)) (k + 1)
        (LevelInv.step H inv) hne1 (by omega)
      refine ⟨root, lo1, k1, ?_, hinv, ?_, ?_⟩
      · simp only [buildMerkleTreeNodes, hp]
        exact hb
      · omega
      · rw [hh, parentsOf_hash]
        simp only [List.map_cons]
        rw [levelFold]

theorem NewMerkleTree_ok (H : String → String) (fuel : Nat) (dataList : List String)
    (hne : dataList ≠ []) (hfuel : dataList.length ≤ fuel) :
    ∃ root lo1 k1, NewMerkleTree H fuel dataList =
        some (.ok { Root := root, LeafData := dataList }) ∧
      LevelInv (leafNodes H 0 dataList) lo1 [root] k1 ∧ k1 + 1 ≤ dataList.length ∧
      root.Hash = merkleRootRef H dataList := by
  have hlen : dataList.length ≠ 0 := by simpa using hne
  have inv := LevelInv.ofLeaves H 0 dataList
  have hne1 : leafNodes H 0 dataList ≠ [] := by
    intro h
    have := leafNodes_length H 0 dataList
    rw [h] at this
    exact hlen this.symm
  obtain ⟨root, lo1, k1, hb, hinv, hk, hh⟩ := buildMerkleTreeNodes_spec H _ fuel 0
    (leafNodes H 0 dataList) 0 inv hne1 (by rw [leafNodes_length]; exact hfuel)
  rw [leafNodes_length, Nat.zero_add] at hb
  rw [leafNodes_length] at hk
  refine ⟨root, lo1, k1, ?_, hinv, by omega, ?_⟩
  · simp only [NewMerkleTree, hlen, if_false, convertDataListToNodes_eq, hb]
  · rw [hh, leafNodes_hash, merkleRootRef]

/-- C6: `NewMerkleTree(dataList)` returns an error (and no tree) exactly when `dataList` is
empty; for a non-empty `dataList` the level-building recursion terminates (within
`len(dataList)` calls) and the result is a tree with a non-nil root whose `LeafData` is
`dataList`. -/
theorem NewMerkleTree_error_iff_empty (H : String → String) :
    (∀ (fuel : Nat) (dataList : List String),
      (∃ e, NewMerkleTree H fuel dataList = some (.error e)) ↔ dataList = []) ∧
    (∀ (fuel : Nat) (dataList : List String), dataList ≠ [] → dataList.length ≤ fuel →
      ∃ t, NewMerkleTree H fuel dataList = some (.ok t) ∧ t.Root ≠ MerkleNode.nil ∧
        t.LeafData = dataList) := by
  constructor
  · intro fuel dataList
    constructor
    · rintro ⟨e, he⟩
      by_contra hne
      have hlen : dataList.length ≠ 0 := by simpa using hne
      simp only [NewMerkleTree, hlen, if_false] at he
      split at he <;> simp at he
    · rintro rfl
      exact ⟨_, rfl⟩
  · intro fuel dataList hne hfuel
    obtain ⟨root, lo1, k1, ht, hinv, _, _⟩ := NewMerkleTree_ok H fuel dataList hne hfuel
    refine ⟨_, ht, ?_, rfl⟩
    have := hinv.nonnil root (by simp)
    intro h
    change root = MerkleNode.nil at h
    rw [h] at this
    simp [MerkleNode.isNil] at this

/-- Witness of `NewMerkleTree_error_iff_empty`: the five-item list of the demonstration. -/
theorem NewMerkleTree_error_iff_empty_witness :
    ["data1", "data2", "data3", "data4", "data5"] ≠ [] ∧
    ["data1", "data2", "data3", "data4", "data5"].length ≤ 5 ∧
    ∃ t, NewMerkleTree calculateHash 5 ["data1", "data2", "data3", "data4", "data5"] =
        some (.ok t) ∧ t.Root ≠ MerkleNode.nil ∧
      t.LeafData = ["data1", "data2", "data3", "data4", "data5"] :=
  ⟨by decide, by decide,
    (NewMerkleTree_error_iff_empty calculateHash).2 5 _ (by decide) (by decide)⟩

/-- C8: for a non-empty data list the root digest of the tree built by `NewMerkleTree` is the
reference level fold of the digests of the items (pairs `(d[2k], d[2k+1])` hashed left first,
the last digest of an odd level hashed with itself, stopping at a level of one digest); the
root of `[a]` is `Hash(a)` and the root of `[a, b]` is `Hash(Hash(a) ++ Hash(b))`. -/
theorem GetMerkleRoot_eq_levelFold (H : String → String) :
    (∀ (fuel : Nat) (dataList : List String), dataList ≠ [] → dataList.length ≤ fuel →
      ∃ t, NewMerkleTree H fuel dataList = some (.ok t) ∧
        t.GetMerkleRoot = merkleRootRef H dataList) ∧
    (∀ (fuel : Nat) (a : String), 1 ≤ fuel →
      ∃ t, NewMerkleTree H fuel [a] = some (.ok t) ∧ t.GetMerkleRoot = H a) ∧
    (∀ (fuel : Nat) (a b : String), 2 ≤ fuel →
      ∃ t, NewMerkleTree H fuel [a, b] = some (.ok t) ∧
        t.GetMerkleRoot = H (H a ++ H b)) := by
  have main : ∀ (fuel : Nat) (dataList : List String), dataList ≠ [] →
      dataList.length ≤ fuel →
      ∃ t, NewMerkleTree H fuel dataList = some (.ok t) ∧
        t.GetMerkleRoot = merkleRootRef H dataList := by
    intro fuel dataList hne hfuel
    obtain ⟨root, lo1, k1, ht, hinv, _, hh⟩ := NewMerkleTree_ok H fuel dataList hne hfuel
    refine ⟨_, ht, ?_⟩
    rw [← hh]
    cases root with
    | nil => rfl
    | node _ _ _ _ _ => rfl
  refine ⟨main, ?_, ?_⟩
  · intro fuel a hf
    obtain ⟨t, ht, hr⟩ := main fuel [a] (by simp) (by simpa using hf)
    exact ⟨t, ht, by rw [hr]; simp [merkleRootRef, levelFold]⟩
  · intro fuel a b hf
    obtain ⟨t, ht, hr⟩ := main fuel [a, b] (by simp) (by simpa using hf)
    exact ⟨t, ht, by rw [hr]; simp [merkleRootRef, levelFold, nextLevel]⟩

/-- Witness of `GetMerkleRoot_eq_levelFold`: the five-item list of the demonstration. -/
theorem GetMerkleRoot_eq_levelFold_witness :
    ["data1", "data2", "data3", "data4", "data5"] ≠ [] ∧
    ["data1", "data2", "data3", "data4", "data5"].length ≤ 5 ∧
    ∃ t, NewMerkleTree calculateHash 5 ["data1", "data2", "data3", "data4", "data5"] =
        some (.ok t) ∧
      t.GetMerkleRoot =
        merkleRootRef calculateHash ["data1", "data2", "data3", "data4", "data5"] :=
  ⟨by decide, by decide,
    (GetMerkleRoot_eq_levelFold calculateHash).1 5 _ (by decide) (by decide)⟩

/-! ### Merkle tree: proof generation -/

theorem ptrEq_iff (x y : MerkleNode) (hx : x.isNil = false) :
    y.ptrEq x = true ↔ y.isNil = false ∧ y.addr = x.addr := by
  cases x with
  | nil => simp [MerkleNode.isNil] at hx
  | node a _ _ _ _ =>
    cases y with
    | nil => simp [MerkleNode.ptrEq, MerkleNode.isNil]
    | node b _ _ _ _ => simp [MerkleNode.ptrEq, MerkleNode.isNil, MerkleNode.addr]

theorem ptrEq_self (x : MerkleNode) : x.ptrEq x = true := by
  cases x <;> simp [MerkleNode.ptrEq]

theorem left_mem_subnodes (x : MerkleNode) (h : x.Left.isNil = false) :
    x.Left ∈ x.subnodes := by
  cases x with
  | nil => simp [MerkleNode.Left, MerkleNode.isNil] at h
  | node a hh l r d =>
    simp only [MerkleNode.subnodes, MerkleNode.Left, List.mem_cons, List.mem_append]
    exact Or.inr (Or.inl (subnodes_self l h))

theorem right_mem_subnodes (x : MerkleNode) (h : x.Right.isNil = false) :
    x.Right ∈ x.subnodes := by
  cases x with
  | nil => simp [MerkleNode.Right, MerkleNode.isNil] at h
  | node a hh l r d =>
    simp only [MerkleNode.subnodes, MerkleNode.Right, List.mem_cons, List.mem_append]
    exact Or.inr (Or.inr (subnodes_self r h))

theorem findNodeRecursive_spec (target : String) (x : MerkleNode)
    (h : (findNodeRecursive target x).isNil = false) :
    findNodeRecursive target x ∈ x.subnodes ∧
      (findNodeRecursive target x).Left.isNil = true ∧
      (findNodeRecursive target x).Right.isNil = true ∧
      (findNodeRecursive target x).Hash = target := by
  induction x with
  | nil => simp [findNodeRecursive, MerkleNode.isNil] at h
  | node a hh l r d ihl ihr =>
    simp only [findNodeRecursive] at h ⊢
    split_ifs at h ⊢ with h1 h2
    · simp only [Bool.and_eq_true, beq_iff_eq] at h1
      exact ⟨by simp [MerkleNode.subnodes], h1.1.1, h1.1.2, h1.2⟩
    · simp only [Bool.not_eq_true_eq_eq_false] at h2
      obtain ⟨m, p⟩ := ihl h2
      exact ⟨by simp [MerkleNode.subnodes, m], p⟩
    · obtain ⟨m, p⟩ := ihr h
      exact ⟨by simp [MerkleNode.subnodes, m], p⟩

theorem findNodeRecursive_found (target : String) (x u : MerkleNode) (hu : u ∈ x.subnodes)
    (hl : u.Left.isNil = true) (hr : u.Right.isNil = true) (hh : u.Hash = target) :
    (findNodeRecursive target x).isNil = false := by
  induction x with
  | nil => simp [MerkleNode.subnodes] at hu
  | node a h l r d ihl ihr =>
    simp only [MerkleNode.subnodes, List.mem_cons, List.mem_append] at hu
    simp only [findNodeRecursive]
    split_ifs with h1 h2
    · rfl
    · simpa using h2
    · simp only [Bool.not_eq_true_eq_eq_false, Bool.not_eq_false] at h2
      rcases hu with rfl | hu | hu
      · simp [MerkleNode.Left, MerkleNode.Right, MerkleNode.Hash] at hl hr hh
        simp [hl, hr, hh] at h1
      · rw [ihl hu] at h2
        simp at h2
      · exact ihr hu

theorem findParent_spec (root c : MerkleNode) (h : (findParent root c).isNil = false) :
    findParent root c ∈ root.subnodes ∧
      ((findParent root c).Left.ptrEq c = true ∨ (findParent root c).Right.ptrEq c = true) := by
  induction root with
  | nil => simp [findParent, MerkleNode.isNil] at h
  | node a hh l r d ihl ihr =>
    simp only [findParent] at h ⊢
    split_ifs at h ⊢ with h1 h2 h3
    · simp [MerkleNode.isNil] at h
    · simp only [Bool.or_eq_true] at h2
      exact ⟨by simp [MerkleNode.subnodes], h2⟩
    · simp only [Bool.not_eq_true_eq_eq_false] at h3
      obtain ⟨m, p⟩ := ihl h3
      exact ⟨by simp [MerkleNode.subnodes, m], p⟩
    · obtain ⟨m, p⟩ := ihr h
      exact ⟨by simp [MerkleNode.subnodes, m], p⟩

theorem findParent_exists (root c q : MerkleNode) (hc : c.isNil = false)
    (hq : q ∈ root.subnodes) (hqc : q.Left.ptrEq c = true ∨ q.Right.ptrEq c = true) :
    (findParent root c).isNil = false := by
  induction root with
  | nil => simp [MerkleNode.subnodes] at hq
  | node a hh l r d ihl ihr =>
    simp only [MerkleNode.subnodes, List.mem_cons, List.mem_append] at hq
    simp only [findParent]
    split_ifs with h1 h2 h3
    · exfalso
      simp only [Bool.and_eq_true] at h1
      have hl : l = MerkleNode.nil := by
        cases l with
        | nil => rfl
        | node _ _ _ _ _ => simp [MerkleNode.isNil] at h1
      have hr : r = MerkleNode.nil := by
        cases r with
        | nil => rfl
        | node _ _ _ _ _ => simp [MerkleNode.isNil] at h1
      subst hl hr
      simp only [MerkleNode.subnodes, List.append_nil, List.not_mem_nil, or_false] at hq
      subst hq
      simp only [MerkleNode.Left, MerkleNode.Right] at hqc
      have := (ptrEq_iff c MerkleNode.nil hc).mp (hqc.elim id id)
      simp [MerkleNode.isNil] at this
    · rfl
    · simpa using h3
    · simp only [Bool.not_eq_true_eq_eq_false, Bool.not_eq_false] at h3
      rcases hq with rfl | hq | hq
      · simp only [MerkleNode.Left, MerkleNode.Right] at hqc
        simp only [Bool.or_eq_true] at h2
        exact absurd hqc h2
      · rw [ihl hq] at h3
        simp at h3
      · exact ihr hq

theorem exists_parent_of_mem_subnodes (root c : MerkleNode) (hc : c ∈ root.subnodes)
    (hne : c ≠ root) : ∃ q ∈ root.subnodes, q.Left = c ∨ q.Right = c := by
  induction root with
  | nil => simp [MerkleNode.subnodes] at hc
  | node a hh l r d ihl ihr =>
    simp only [MerkleNode.subnodes, List.mem_cons, List.mem_append] at hc
    rcases hc with rfl | hc | hc
    · exact absurd rfl hne
    · by_cases e : c = l
      · exact ⟨.node a hh l r d, by simp [MerkleNode.subnodes], Or.inl e.symm⟩
      · obtain ⟨q, hq, hqc⟩ := ihl hc e
        exact ⟨q, by simp [MerkleNode.subnodes, hq], hqc⟩
    · by_cases e : c = r
      · exact ⟨.node a hh l r d, by simp [MerkleNode.subnodes], Or.inr e.symm⟩
      · obtain ⟨q, hq, hqc⟩ := ihr hc e
        exact ⟨q, by simp [MerkleNode.subnodes, hq], hqc⟩

theorem child_height_lt (x : MerkleNode) (hx : x.isNil = false) :
    x.Left.height < x.height ∧ x.Right.height < x.height := by
  cases x with
  | nil => simp [MerkleNode.isNil] at hx
  | node a hh l r d =>
    simp only [MerkleNode.Left, MerkleNode.Right, MerkleNode.height]
    omega

theorem proofLoop_ok (root : MerkleNode)
    (huniq : ∀ u ∈ root.subnodes, ∀ v ∈ root.subnodes, u.addr = v.addr → u = v) :
    ∀ (fuel : Nat) (current : MerkleNode) (proof : List String), current ∈ root.subnodes →
      root.height < fuel + current.height →
      ∃ p, proofLoop root fuel current proof = some (.ok p) := by
  intro fuel
  induction fuel with
  | zero =>
    intro current proof hc hlt
    have := height_le_of_mem_subnodes root current hc
    omega
  | succ fuel ih =>
    intro current proof hc hlt
    have hcn : current.isNil = false := subnodes_not_nil root current hc
    by_cases hpe : current.ptrEq root = true
    · exact ⟨proof, by simp [proofLoop, hpe]⟩
    · have hne : current ≠ root := by
        intro h
        rw [h] at hpe
        exact hpe (ptrEq_self root)
      obtain ⟨q, hq, hqc⟩ := exists_parent_of_mem_subnodes root current hc hne
      have hqc1 : q.Left.ptrEq current = true ∨ q.Right.ptrEq current = true := by
        rcases hqc with h | h
        · exact Or.inl (by rw [h]; exact ptrEq_self current)
        · exact Or.inr (by rw [h]; exact ptrEq_self current)
      have hpn := findParent_exists root current q hcn hq hqc1
      obtain ⟨hpm, hpc⟩ := findParent_spec root current hpn
      have hh : current.height < (findParent root current).height := by
        rcases hpc with h | h
        · obtain ⟨h1, h2⟩ := (ptrEq_iff current _ hcn).mp h
          have hm := subnodes_trans _ _ _ (left_mem_subnodes _ h1) hpm
          have he := huniq _ hm _ hc h2
          have := (child_height_lt _ hpn).1
          rw [he] at this
          exact this
        · obtain ⟨h1, h2⟩ := (ptrEq_iff current _ hcn).mp h
          have hm := subnodes_trans _ _ _ (right_mem_subnodes _ h1) hpm
          have he := huniq _ hm _ hc h2
          have := (child_height_lt _ hpn).2
          rw [he] at this
          exact this
      simp only [proofLoop, hpe, hpn, Bool.false_eq_true, if_false]
      exact ih _ _ hpm (by omega)

theorem proofLoop_ne_parent_error (root : MerkleNode)
    (huniq : ∀ u ∈ root.subnodes, ∀ v ∈ root.subnodes, u.addr = v.addr → u = v)
    (fuel : Nat) (current : MerkleNode) (proof : List String) (hc : current ∈ root.subnodes)
    (hlt : root.height < fuel + current.height) (e : String) :
    proofLoop root fuel current proof ≠ some (.error e) := by
  obtain ⟨p, hp⟩ := proofLoop_ok root huniq fuel current proof hc hlt
  rw [hp]
  simp

theorem buildMerkleTreeNodes_cons_cons (H : String → String) (fuel next : Nat)
    (x y : MerkleNode) (rest : List MerkleNode) :
    buildMerkleTreeNodes H (fuel + 1) next (x :: y :: rest) =
      (pairNodes H next (x :: y :: rest)).bind
        (fun parentNodes => buildMerkleTreeNodes H fuel (next + parentNodes.length) parentNodes) := by
  simp only [buildMerkleTreeNodes]
  cases pairNodes H next (x :: y :: rest) <;> rfl

theorem buildMerkleTreeNodes_succ (H : String → String) :
    ∀ (fuel next : Nat) (nodes : List MerkleNode) (root : MerkleNode),
      buildMerkleTreeNodes H fuel next nodes = some root →
      buildMerkleTreeNodes H (fuel + 1) next nodes = some root := by
  intro fuel
  induction fuel with
  | zero =>
    intro next nodes root h
    simp [buildMerkleTreeNodes] at h
  | succ fuel ih =>
    intro next nodes root h
    rcases nodes with _ | ⟨x, _ | ⟨y, rest⟩⟩
    · rw [buildMerkleTreeNodes_nil] at h
      simp at h
    · simpa [buildMerkleTreeNodes] using h
    · rw [buildMerkleTreeNodes_cons_cons] at h ⊢
      cases hp : pairNodes H next (x :: y :: rest) with
      | none => simp [hp] at h
      | some parents =>
        simp only [hp, Option.some_bind] at h ⊢
        exact ih _ _ _ h

theorem buildMerkleTreeNodes_mono (H : String → String) (fuel fuel1 next : Nat)
    (nodes : List MerkleNode) (root : MerkleNode) (hle : fuel ≤ fuel1)
    (h : buildMerkleTreeNodes H fuel next nodes = some root) :
    buildMerkleTreeNodes H fuel1 next nodes = some root := by
  induction fuel1 with
  | zero =>
    have : fuel = 0 := by omega
    rw [this] at h
    exact h
  | succ n ih =>
    by_cases e : fuel = n + 1
    · rw [e] at h
      exact h
    · exact buildMerkleTreeNodes_succ H n next nodes root (ih (by omega))

theorem NewMerkleTree_inv (H : String → String) (fuel : Nat) (dataList : List String)
    (t : MerkleTree) (ht : NewMerkleTree H fuel dataList = some (.ok t)) :
    dataList ≠ [] ∧ t.LeafData = dataList ∧
      ∃ lo1 k1, LevelInv (leafNodes H 0 dataList) lo1 [t.Root] k1 ∧
        k1 + 1 ≤ dataList.length ∧ t.Root.Hash = merkleRootRef H dataList := by
  have hne : dataList ≠ [] := by
    rintro rfl
    simp [NewMerkleTree] at ht
  have hlen : dataList.length ≠ 0 := by simpa using hne
  obtain ⟨root, lo1, k1, hok, hinv, hk, hh⟩ :=
    NewMerkleTree_ok H (max fuel dataList.length) dataList hne (le_max_right _ _)
  have hsame : NewMerkleTree H (max fuel dataList.length) dataList = some (.ok t) := by
    simp only [NewMerkleTree, hlen, if_false] at ht ⊢
    cases hb : buildMerkleTreeNodes H fuel dataList.length
        (convertDataListToNodes H 0 dataList) with
    | none => simp [hb] at ht
    | some r =>
      rw [buildMerkleTreeNodes_mono H fuel _ _ _ r (le_max_left _ _) hb]
      simpa [hb] using ht
  rw [hsame] at hok
  have ht1 : t = { Root := root, LeafData := dataList } := by
    simpa using hok
  subst ht1
  exact ⟨hne, rfl, lo1, k1, hinv, hk, hh⟩

theorem root_uniq_of_levelInv {leaves : List MerkleNode} {lo k : Nat} {root : MerkleNode}
    (inv : LevelInv leaves lo [root] k) :
    ∀ u ∈ root.subnodes, ∀ v ∈ root.subnodes, u.addr = v.addr → u = v :=
  fun u hu v hv e => inv.uniq root (by simp) root (by simp) u hu v hv e

theorem isNil_eq_true_iff (x : MerkleNode) : x.isNil = true ↔ x = MerkleNode.nil := by
  cases x <;> simp [MerkleNode.isNil]

theorem GenerateMerkleProof_cases (H : String → String) (fuel1 fuel2 : Nat)
    (dataList : List String) (t : MerkleTree) (item : String)
    (ht : NewMerkleTree H fuel1 dataList = some (.ok t)) (hfuel : dataList.length ≤ fuel2) :
    ((∀ u ∈ t.Root.subnodes, u.Left = MerkleNode.nil → u.Right = MerkleNode.nil →
        H item ≠ u.Hash) ∧
      t.GenerateMerkleProof H fuel2 item = some (.error "data not found in Merkle Tree")) ∨
    ((∃ u ∈ t.Root.subnodes, u.Left = MerkleNode.nil ∧ u.Right = MerkleNode.nil ∧
        H item = u.Hash) ∧
      ∃ p, t.GenerateMerkleProof H fuel2 item = some (.ok p)) := by
  obtain ⟨hne, _, lo1, k1, hinv, hk, _⟩ := NewMerkleTree_inv H fuel1 dataList t ht
  unfold MerkleTree.GenerateMerkleProof findLeafNode
  by_cases hf : (findNodeRecursive (H item) t.Root).isNil = true
  · left
    refine ⟨fun u hu hl hr hh => ?_, by simp [hf]⟩
    have := findNodeRecursive_found (H item) t.Root u hu (by simp [hl, MerkleNode.isNil])
      (by simp [hr, MerkleNode.isNil]) hh.symm
    rw [hf] at this
    simp at this
  · right
    simp only [Bool.not_eq_true] at hf
    obtain ⟨hm, hl, hr, hh⟩ := findNodeRecursive_spec (H item) t.Root hf
    refine ⟨⟨_, hm, (isNil_eq_true_iff _).mp hl, (isNil_eq_true_iff _).mp hr, hh.symm⟩, ?_⟩
    simp only [hf, Bool.false_eq_true, if_false]
    apply proofLoop_ok t.Root (root_uniq_of_levelInv hinv) fuel2 _ [] hm
    have h1 := hinv.height_eq t.Root (by simp)
    have h2 : 0 < (findNodeRecursive (H item) t.Root).height := by
      cases hx : findNodeRecursive (H item) t.Root with
      | nil => rw [hx] at hf; simp [MerkleNode.isNil] at hf
      | node _ _ _ _ _ => simp [MerkleNode.height]
    omega

theorem leaf_digests (H : String → String) (fuel : Nat) (dataList : List String)
    (t : MerkleTree) (ht : NewMerkleTree H fuel dataList = some (.ok t)) (target : String) :
    (∃ u ∈ t.Root.subnodes, u.Left = MerkleNode.nil ∧ u.Right = MerkleNode.nil ∧
        target = u.Hash) ↔ ∃ d ∈ dataList, target = H d := by
  obtain ⟨hne, _, lo1, k1, hinv, hk, _⟩ := NewMerkleTree_inv H fuel dataList t ht
  constructor
  · rintro ⟨u, hu, hl, hr, hh⟩
    have := hinv.leafsrc t.Root (by simp) u hu (by simp [hl, MerkleNode.isNil])
      (by simp [hr, MerkleNode.isNil])
    obtain ⟨a, d, hd, rfl⟩ := mem_leafNodes H 0 dataList u this
    exact ⟨d, hd, hh⟩
  · rintro ⟨d, hd, hh⟩
    obtain ⟨a, ha⟩ := leafNodes_of_mem H 0 dataList d hd
    obtain ⟨x, hx, hux⟩ := hinv.cover _ ha
    have : x = t.Root := by simpa using hx
    subst this
    exact ⟨_, hux, rfl, rfl, hh⟩

/-- C7: on a tree built by `NewMerkleTree` from `dataList`, `GenerateMerkleProof(item)` returns
(within `len(dataList)` iterations of its loop); it returns an error exactly when `Hash(item)`
differs from the digest of every leaf of the tree, which is exactly when it differs from the
digest of every item of `dataList`; it succeeds for every item of `dataList`; and the error
"could not find parent node" is never returned. -/
theorem GenerateMerkleProof_error_iff_absent (H : String → String) (fuel1 fuel2 : Nat)
    (dataList : List String) (t : MerkleTree) (item : String)
    (ht : NewMerkleTree H fuel1 dataList = some (.ok t)) (hfuel : dataList.length ≤ fuel2) :
    (∃ r, t.GenerateMerkleProof H fuel2 item = some r) ∧
    ((∃ e, t.GenerateMerkleProof H fuel2 item = some (.error e)) ↔
      ∀ u ∈ t.Root.subnodes, u.Left = MerkleNode.nil → u.Right = MerkleNode.nil →
        H item ≠ u.Hash) ∧
    ((∃ e, t.GenerateMerkleProof H fuel2 item = some (.error e)) ↔
      ∀ d ∈ dataList, H item ≠ H d) ∧
    (item ∈ dataList → ∃ p, t.GenerateMerkleProof H fuel2 item = some (.ok p)) ∧
    t.GenerateMerkleProof H fuel2 item ≠ some (.error "could not find parent node") := by
  have hleaf := leaf_digests H fuel1 dataList t ht (H item)
  have hiff : (∀ u ∈ t.Root.subnodes, u.Left = MerkleNode.nil → u.Right = MerkleNode.nil →
      H item ≠ u.Hash) ↔ ∀ d ∈ dataList, H item ≠ H d := by
    constructor
    · intro h d hd e
      obtain ⟨u, hu, hl, hr, hh⟩ := hleaf.mpr ⟨d, hd, e⟩
      exact h u hu hl hr hh
    · intro h u hu hl hr e
      obtain ⟨d, hd, hh⟩ := hleaf.mp ⟨u, hu, hl, hr, e⟩
      exact h d hd hh
  rcases GenerateMerkleProof_cases H fuel1 fuel2 dataList t item ht hfuel with
    ⟨habs, herr⟩ | ⟨⟨u, hu, hl, hr, hh⟩, p, hp⟩
  · refine ⟨⟨_, herr⟩, ⟨fun _ => habs, fun _ => ⟨_, herr⟩⟩,
      ⟨fun _ => hiff.mp habs, fun _ => ⟨_, herr⟩⟩, fun hi => ?_, ?_⟩
    · exact absurd rfl (hiff.mp habs item hi)
    · rw [herr]
      simp
  · refine ⟨⟨_, hp⟩, ⟨?_, fun h => absurd hh (h u hu hl hr)⟩,
      ⟨?_, fun h => absurd hh (hiff.mpr h u hu hl hr)⟩, fun _ => ⟨p, hp⟩, ?_⟩
    · rintro ⟨e, he⟩
      rw [hp] at he
      simp at he
    · rintro ⟨e, he⟩
      rw [hp] at he
      simp at he
    · rw [hp]
      simp

/-- Witness of `GenerateMerkleProof_error_iff_absent`: the tree of `testMerkleTree` and the
item "data5". -/
theorem GenerateMerkleProof_error_iff_absent_witness :
    NewMerkleTree calculateHash 5 demoDataList = some (.ok demoTree) ∧
    demoDataList.length ≤ 5 ∧
    ∃ p, demoTree.GenerateMerkleProof calculateHash 5 "data5" = some (.ok p) :=
  ⟨rfl, by decide,
    (GenerateMerkleProof_error_iff_absent calculateHash 5 5 demoDataList demoTree "data5"
      rfl (by decide)).2.2.2.1 (by decide)⟩

set_option maxRecDepth 1000000 in
/-- C1, evaluated at its own example: on the tree built from "data1" .. "data5", the proof
generated for "data3" is rejected by `VerifyMerkleProof` against the root of the tree, and so
is the proof generated for "data5"; the proof generated for "data1" is accepted. -/
theorem proofRoundTrip_demo :
    proofRoundTrip calculateHash 5 demoDataList "data3" = some false ∧
    proofRoundTrip calculateHash 5 demoDataList "data5" = some false ∧
    proofRoundTrip calculateHash 5 demoDataList "data1" = some true := by
  decide

/-! ### Ledger: mutation of a block -/

theorem chain_congr_head (H : String → String) (b b1 : Block) (post : List Block)
    (hn : b1.BlockNumber = b.BlockNumber) (hh : b1.Hash = b.Hash) :
    List.Chain (passesChecks H) b1 post ↔ List.Chain (passesChecks H) b post := by
  cases post with
  | nil => simp
  | cons c rest => simp [List.chain_cons, passesChecks, hn, hh]

theorem IsChainValid_split (H : String → String) (pre post : List Block) (b : Block) :
    IsChainValid H (pre ++ b :: post) = true ↔
      ((pre = [] ∧ passesGenesisChecks H b) ∨
        (∃ tip, pre.getLast? = some tip ∧ IsChainValid H pre = true ∧ passesChecks H tip b)) ∧
      List.Chain (passesChecks H) b post := by
  cases pre with
  | nil => simp [IsChainValid_cons]
  | cons g rest =>
    rw [List.cons_append, IsChainValid_cons, List.chain_split, chain_append_singleton,
      IsChainValid_cons]
    have hl : (g :: rest).getLast? = some ((g :: rest).getLast (by simp)) :=
      List.getLast?_eq_getLast _ _
    constructor
    · rintro ⟨hg, ⟨hc, hr⟩, hp⟩
      exact ⟨Or.inr ⟨_, hl, ⟨hg, hc⟩, hr⟩, hp⟩
    · rintro ⟨h | ⟨tip, ht, ⟨hg, hc⟩, hr⟩, hp⟩
      · simp at h
      · rw [hl] at ht
        rw [Option.some.inj ht]
        exact ⟨hg, ⟨hc, hr⟩, hp⟩

/-- A block number, previous hash or stored hash changed alone is rejected: when a chain is
accepted with `b` at some position, it is rejected with `b1` in its place as soon as `b1` has
another block number, or another previous hash, or the same record and another stored hash. -/
theorem mutation_rejected (H : String → String) (pre post : List Block) (b b1 : Block)
    (hv : IsChainValid H (pre ++ b :: post) = true)
    (h : b1.BlockNumber ≠ b.BlockNumber ∨ b1.PrevBlockHash ≠ b.PrevBlockHash ∨
      (b1.record = b.record ∧ b1.Hash ≠ b.Hash)) :
    IsChainValid H (pre ++ b1 :: post) = false := by
  by_contra hc
  have hv1 : IsChainValid H (pre ++ b1 :: post) = true := by simpa using hc
  obtain ⟨hb, _⟩ := (IsChainValid_split H pre post b).mp hv
  obtain ⟨hb1, _⟩ := (IsChainValid_split H pre post b1).mp hv1
  have key : b1.BlockNumber = b.BlockNumber ∧ b1.PrevBlockHash = b.PrevBlockHash ∧
      H b1.record = b1.Hash ∧ H b.record = b.Hash := by
    rcases hb with ⟨hp, g1, g2, g3⟩ | ⟨tip, ht, _, r1, r2, r3⟩
    · rcases hb1 with ⟨_, k1, k2, k3⟩ | ⟨tip1, ht1, _⟩
      · exact ⟨by rw [g1, k1], by rw [g2, k2], k3, g3⟩
      · rw [hp] at ht1
        simp at ht1
    · rcases hb1 with ⟨hp1, _⟩ | ⟨tip1, ht1, _, k1, k2, k3⟩
      · rw [hp1] at ht
        simp at ht
      · have : tip1 = tip := by
          rw [ht] at ht1
          exact (Option.some.inj ht1).symm
        subst this
        exact ⟨by rw [r1, k1], by rw [r2, k2], k3, r3⟩
  obtain ⟨k1, k2, k3, k4⟩ := key
  rcases h with h | h | ⟨hr, hh⟩
  · exact h k1
  · exact h k2
  · rw [hr, k4] at k3
    exact hh k3.symm

/-- A timestamp, payload or nonce changed alone is accepted exactly when the digest of the
record does not change: when a chain is accepted with `b` at some position and `b1` has the
block number, previous hash and stored hash of `b`, the chain with `b1` in its place is
accepted if and only if `Hash(b1.record) = Hash(b.record)`. -/
theorem mutation_accepted_iff (H : String → String) (pre post : List Block) (b b1 : Block)
    (hv : IsChainValid H (pre ++ b :: post) = true)
    (hn : b1.BlockNumber = b.BlockNumber) (hp : b1.PrevBlockHash = b.PrevBlockHash)
    (hh : b1.Hash = b.Hash) :
    IsChainValid H (pre ++ b1 :: post) = true ↔ H b1.record = H b.record := by
  obtain ⟨hb, hpost⟩ := (IsChainValid_split H pre post b).mp hv
  rw [IsChainValid_split, chain_congr_head H b b1 post hn hh]
  have hbh : H b.record = b.Hash := by
    rcases hb with ⟨_, _, _, g3⟩ | ⟨_, _, _, _, _, r3⟩
    · exact g3
    · exact r3
  constructor
  · rintro ⟨h | ⟨tip, _, _, _, _, k3⟩, _⟩
    · have k3 : H b1.record = b1.Hash := h.2.2.2
      rw [k3, hh, hbh]
    · have k3 : H b1.record = b1.Hash := k3
      rw [k3, hh, hbh]
  · intro he
    have k3 : b1.CalculateBlockHash H = b1.Hash := by
      show H b1.record = b1.Hash
      rw [he, hbh, hh]
    refine ⟨?_, hpost⟩
    rcases hb with ⟨hpre, g1, g2, _⟩ | ⟨tip, ht, hvp, r1, r2, _⟩
    · exact Or.inl ⟨hpre, by rw [hn]; exact g1, by rw [hp]; exact g2, k3⟩
    · exact Or.inr ⟨tip, ht, hvp, by rw [hn]; exact r1, by rw [hp]; exact r2, k3⟩

theorem NewBlock_self_consistent (H : String → String) (now blockNumber : Int)
    (prevBlockHash transactions : String) (nonce : Int) :
    (NewBlock H now blockNumber prevBlockHash transactions nonce).CalculateBlockHash H =
      (NewBlock H now blockNumber prevBlockHash transactions nonce).Hash := rfl

theorem demo_chain_valid :
    IsChainValid calculateHash [demoGenesis, demoBlock1, demoBlock2] = true := by
  rw [IsChainValid_cons]
  refine ⟨⟨rfl, rfl, NewBlock_self_consistent _ _ _ _ _ _⟩, ?_⟩
  refine List.Chain.cons ⟨by decide, rfl, NewBlock_self_consistent _ _ _ _ _ _⟩ ?_
  exact List.Chain.cons ⟨by decide, rfl, NewBlock_self_consistent _ _ _ _ _ _⟩ List.Chain.nil

/-- C10, at a ledger grown by `AddBlock`: the three-block chain is accepted by `IsChainValid`,
and it is still accepted after the timestamp of block 1 is changed while every other field of
every block, the stored hashes included, is left as it was. -/
theorem retimed_block_accepted :
    (NewBlockchain calculateHash 1700000000000000000).AddBlock calculateHash demoBlock1 =
      some ({ Blocks := [demoGenesis, demoBlock1] }, GoError.nil) ∧
    (Blockchain.mk [demoGenesis, demoBlock1]).AddBlock calculateHash demoBlock2 =
      some ({ Blocks := [demoGenesis, demoBlock1, demoBlock2] }, GoError.nil) ∧
    IsChainValid calculateHash [demoGenesis, demoBlock1, demoBlock2] = true ∧
    demoBlock1Retimed.Timestamp ≠ demoBlock1.Timestamp ∧
    demoBlock1Retimed = { demoBlock1 with Timestamp := 1700000001000000001 } ∧
    IsChainValid calculateHash [demoGenesis, demoBlock1Retimed, demoBlock2] = true := by
  refine ⟨?_, ?_, demo_chain_valid, by decide, rfl, ?_⟩
  · rw [AddBlock_eq calculateHash (NewBlockchain calculateHash 1700000000000000000)
        demoGenesis demoBlock1 rfl,
      if_neg (by decide), if_neg (fun h => h rfl),
      if_neg (fun h => h (NewBlock_self_consistent _ _ _ _ _ _))]
    rfl
  · rw [AddBlock_eq calculateHash (Blockchain.mk [demoGenesis, demoBlock1])
        demoBlock1 demoBlock2 rfl,
      if_neg (by decide), if_neg (fun h => h rfl),
      if_neg (fun h => h (NewBlock_self_consistent _ _ _ _ _ _))]
    rfl
  · have h := mutation_accepted_iff calculateHash [demoGenesis] [demoBlock2] demoBlock1
      demoBlock1Retimed demo_chain_valid rfl rfl rfl
    exact h.mpr (congrArg calculateHash (by
      simp only [Block.record, demoBlock1Retimed, demoBlock1, NewBlock]
      rfl))

/-! ### Ledger: construction of blocks and of the ledger -/

theorem NewBlockchain_genesis_aux (H : String → String) (now : Int) :
    ∃ g, (NewBlockchain H now).Blocks = [g] ∧ g.BlockNumber = 0 ∧ g.Timestamp = now ∧
      g.PrevBlockHash = "" ∧ g.Transactions = "Genesis Block Transactions" ∧ g.Nonce = 0 ∧
      IsChainValid H (NewBlockchain H now).Blocks = true := by
  refine ⟨createGenesisBlock H now, rfl, rfl, rfl, rfl, rfl, rfl, ?_⟩
  show IsChainValid H [createGenesisBlock H now] = true
  rw [IsChainValid_cons]
  exact ⟨⟨rfl, rfl, NewBlock_self_consistent H now 0 "" "Genesis Block Transactions" 0⟩,
    List.Chain.nil⟩

/-- C12: `NewBlockchain` returns a ledger whose block list has exactly one block, with block
number 0, empty previous hash, payload "Genesis Block Transactions" and nonce 0, whatever the
creation timestamp, and `IsChainValid` accepts that block list. -/
theorem NewBlockchain_genesis (H : String → String) (now : Int) :
    ∃ g, (NewBlockchain H now).Blocks = [g] ∧ g.BlockNumber = 0 ∧ g.Timestamp = now ∧
      g.PrevBlockHash = "" ∧ g.Transactions = "Genesis Block Transactions" ∧ g.Nonce = 0 ∧
      IsChainValid H (NewBlockchain H now).Blocks = true :=
  NewBlockchain_genesis_aux H now

/-- C13: the block returned by `NewBlock` stores its four arguments and the creation time in
its fields, and its stored hash is its recomputed hash; `CalculateBlockHash` depends only on
`BlockNumber`, `Timestamp`, `PrevBlockHash`, `Transactions` and `Nonce`, never on the stored
`Hash` (and, having no assignment, changes no field). -/
theorem NewBlock_fields_and_hash (H : String → String) :
    (∀ (now blockNumber : Int) (prevBlockHash transactions : String) (nonce : Int),
      (NewBlock H now blockNumber prevBlockHash transactions nonce).BlockNumber = blockNumber ∧
      (NewBlock H now blockNumber prevBlockHash transactions nonce).Timestamp = now ∧
      (NewBlock H now blockNumber prevBlockHash transactions nonce).PrevBlockHash =
        prevBlockHash ∧
      (NewBlock H now blockNumber prevBlockHash transactions nonce).Transactions =
        transactions ∧
      (NewBlock H now blockNumber prevBlockHash transactions nonce).Nonce = nonce ∧
      (NewBlock H now blockNumber prevBlockHash transactions nonce).Hash =
        (NewBlock H now blockNumber prevBlockHash transactions nonce).CalculateBlockHash H) ∧
    (∀ b1 b2 : Block, b1.BlockNumber = b2.BlockNumber → b1.Timestamp = b2.Timestamp →
      b1.PrevBlockHash = b2.PrevBlockHash → b1.Transactions = b2.Transactions →
      b1.Nonce = b2.Nonce → b1.CalculateBlockHash H = b2.CalculateBlockHash H) ∧
    (∀ (b : Block) (h : String),
      ({ b with Hash := h } : Block).CalculateBlockHash H = b.CalculateBlockHash H) := by
  refine ⟨fun now blockNumber prevBlockHash transactions nonce =>
    ⟨rfl, rfl, rfl, rfl, rfl, rfl⟩, ?_, fun b h => rfl⟩
  intro b1 b2 h1 h2 h3 h4 h5
  simp only [Block.CalculateBlockHash, Block.record, h1, h2, h3, h4, h5]

/-- Witness of `NewBlock_fields_and_hash`: block 1 of the demonstration ledger and the same
block with another stored hash. -/
theorem NewBlock_fields_and_hash_witness :
    demoBlock1.BlockNumber = ({ demoBlock1 with Hash := "00" } : Block).BlockNumber ∧
    demoBlock1.CalculateBlockHash calculateHash =
      ({ demoBlock1 with Hash := "00" } : Block).CalculateBlockHash calculateHash :=
  ⟨rfl, (NewBlock_fields_and_hash calculateHash).2.1 demoBlock1 { demoBlock1 with Hash := "00" }
    rfl rfl rfl rfl rfl⟩

/-! ### Ledger: the integer-to-string conversion in the block hash -/

theorem intToString_out_of_range (n : Int)
    (h : n < 0 ∨ 0x10FFFF < n ∨ (0xD800 ≤ n ∧ n ≤ 0xDFFF)) :
    intToString n = String.singleton (Char.ofNat 0xFFFD) := by
  unfold intToString
  rw [if_neg]
  rintro ⟨h0, hv⟩
  have hn : (n.toNat : Int) = n := Int.toNat_of_nonneg h0
  unfold Nat.isValidChar at hv
  omega

/-- C19: the conversion `string(n)` used by `CalculateBlockHash` gives the text of code point
`n` for a valid code point and the replacement character U+FFFD for every other `n`; hence two
blocks that agree on block number, previous hash, payload and nonce and whose timestamps are
both greater than 0x10FFFF have the same `CalculateBlockHash`, for any digest function, and
likewise for two nonces, or two block numbers, that are both out of range; in particular the
hash stored by `NewBlock` is the same for all creation times above 0x10FFFF. -/
theorem CalculateBlockHash_ignores_timestamp (H : String → String) :
    (∀ n : Int, 0 ≤ n → Nat.isValidChar n.toNat →
      intToString n = String.singleton (Char.ofNat n.toNat)) ∧
    (∀ n : Int, (n < 0 ∨ 0x10FFFF < n ∨ (0xD800 ≤ n ∧ n ≤ 0xDFFF)) →
      intToString n = String.singleton (Char.ofNat 0xFFFD)) ∧
    (∀ b1 b2 : Block, b1.BlockNumber = b2.BlockNumber →
      b1.PrevBlockHash = b2.PrevBlockHash → b1.Transactions = b2.Transactions →
      b1.Nonce = b2.Nonce → 0x10FFFF < b1.Timestamp → 0x10FFFF < b2.Timestamp →
      b1.CalculateBlockHash H = b2.CalculateBlockHash H) ∧
    (∀ b1 b2 : Block, b1.BlockNumber = b2.BlockNumber → b1.Timestamp = b2.Timestamp →
      b1.PrevBlockHash = b2.PrevBlockHash → b1.Transactions = b2.Transactions →
      (b1.Nonce < 0 ∨ 0x10FFFF < b1.Nonce) → (b2.Nonce < 0 ∨ 0x10FFFF < b2.Nonce) →
      b1.CalculateBlockHash H = b2.CalculateBlockHash H) ∧
    (∀ b1 b2 : Block, b1.Timestamp = b2.Timestamp →
      b1.PrevBlockHash = b2.PrevBlockHash → b1.Transactions = b2.Transactions →
      b1.Nonce = b2.Nonce → (b1.BlockNumber < 0 ∨ 0x10FFFF < b1.BlockNumber) →
      (b2.BlockNumber < 0 ∨ 0x10FFFF < b2.BlockNumber) →
      b1.CalculateBlockHash H = b2.CalculateBlockHash H) ∧
    (∀ (now1 now2 blockNumber : Int) (prevBlockHash transactions : String) (nonce : Int),
      0x10FFFF < now1 → 0x10FFFF < now2 →
      (NewBlock H now1 blockNumber prevBlockHash transactions nonce).Hash =
        (NewBlock H now2 blockNumber prevBlockHash transactions nonce).Hash) := by
  have key : ∀ n : Int, (n < 0 ∨ 0x10FFFF < n) →
      intToString n = String.singleton (Char.ofNat 0xFFFD) := fun n hn =>
    intToString_out_of_range n (hn.elim Or.inl (fun h => Or.inr (Or.inl h)))
  refine ⟨?_, intToString_out_of_range, ?_, ?_, ?_, ?_⟩
  · intro n h0 hv
    unfold intToString
    rw [if_pos ⟨h0, hv⟩]
  · intro b1 b2 h1 h3 h4 h5 t1 t2
    simp only [Block.CalculateBlockHash, Block.record, h1, h3, h4, h5,
      key _ (Or.inr t1), key _ (Or.inr t2)]
  · intro b1 b2 h1 h2 h3 h4 n1 n2
    simp only [Block.CalculateBlockHash, Block.record, h1, h2, h3, h4, key _ n1, key _ n2]
  · intro b1 b2 h2 h3 h4 h5 n1 n2
    simp only [Block.CalculateBlockHash, Block.record, h2, h3, h4, h5, key _ n1, key _ n2]
  · intro now1 now2 blockNumber prevBlockHash transactions nonce t1 t2
    show H _ = H _
    simp only [Block.record, key _ (Or.inr t1), key _ (Or.inr t2)]

/-- Witness of `CalculateBlockHash_ignores_timestamp`: block 1 of the demonstration ledger and
the same block one nanosecond later. -/
theorem CalculateBlockHash_ignores_timestamp_witness :
    (0x10FFFF : Int) < demoBlock1.Timestamp ∧ (0x10FFFF : Int) < demoBlock1Retimed.Timestamp ∧
    demoBlock1.Timestamp ≠ demoBlock1Retimed.Timestamp ∧
    demoBlock1.CalculateBlockHash calculateHash =
      demoBlock1Retimed.CalculateBlockHash calculateHash :=
  ⟨by decide, by decide, by decide,
    (CalculateBlockHash_ignores_timestamp calculateHash).2.2.1 demoBlock1 demoBlock1Retimed
      rfl rfl rfl rfl (by decide) (by decide)⟩

/-! ### Ledger: agreement of `IsBlockValid` with `AddBlock`, reachable states -/

theorem IsBlockValid_eq (H : String → String) (bc : Blockchain) (tip b : Block)
    (htip : bc.Blocks.getLast? = some tip) :
    bc.IsBlockValid H b = some
      (if b.BlockNumber ≠ intAdd tip.BlockNumber 1 then false
      else if b.PrevBlockHash ≠ tip.Hash then false
      else if b.CalculateBlockHash H ≠ b.Hash then false
      else true) := by
  have hne : bc.Blocks.length ≠ 0 := by
    intro h0
    have : bc.Blocks = [] := List.length_eq_zero.mp h0
    rw [this] at htip
    simp at htip
  unfold Blockchain.IsBlockValid Blockchain.GetLastBlock
  simp only [hne, if_false, htip]
  split_ifs <;> rfl

/-- C20: on a non-empty ledger, `IsBlockValid(b)` returns true if and only if `AddBlock(b)` on
the same ledger state returns no error; `IsBlockValid` returns a boolean only and assigns
nothing, so the ledger `AddBlock` starts from is the same before and after it. -/
theorem IsBlockValid_iff_AddBlock_ok (H : String → String) (bc : Blockchain) (b : Block)
    (hne : bc.Blocks ≠ []) :
    ∃ v bc1 err, bc.IsBlockValid H b = some v ∧ bc.AddBlock H b = some (bc1, err) ∧
      (v = true ↔ err = GoError.nil) := by
  have htip : bc.Blocks.getLast? = some (bc.Blocks.getLast hne) :=
    List.getLast?_eq_getLast _ hne
  rw [IsBlockValid_eq H bc _ b htip, AddBlock_eq H bc _ b htip]
  split_ifs with h1 h2 h3
  · exact ⟨_, _, _, rfl, rfl, by simp [blockNumberError]⟩
  · exact ⟨_, _, _, rfl, rfl, by simp [prevHashError]⟩
  · exact ⟨_, _, _, rfl, rfl, by simp [blockHashError]⟩
  · exact ⟨_, _, _, rfl, rfl, by simp⟩

/-- Witness of `IsBlockValid_iff_AddBlock_ok`: the new ledger and block 1 of the
demonstration. -/
theorem IsBlockValid_iff_AddBlock_ok_witness :
    (NewBlockchain calculateHash 1700000000000000000).Blocks ≠ [] ∧
    ∃ v bc1 err,
      (NewBlockchain calculateHash 1700000000000000000).IsBlockValid calculateHash demoBlock1 =
        some v ∧
      (NewBlockchain calculateHash 1700000000000000000).AddBlock calculateHash demoBlock1 =
        some (bc1, err) ∧
      (v = true ↔ err = GoError.nil) :=
  ⟨by simp [NewBlockchain],
    IsBlockValid_iff_AddBlock_ok calculateHash _ demoBlock1 (by simp [NewBlockchain])⟩

theorem IsChainValid_append_of_checks (H : String → String) (bs : List Block) (tip b : Block)
    (htip : bs.getLast? = some tip) (hv : IsChainValid H bs = true)
    (hb : passesChecks H tip b) : IsChainValid H (bs ++ [b]) = true := by
  have := (IsChainValid_split H bs [] b).mpr
    ⟨Or.inr ⟨tip, htip, hv, hb⟩, List.Chain.nil⟩
  exact this

theorem reachable_inv (H : String → String) (bc : Blockchain) (h : Reachable H bc) :
    bc.Blocks ≠ [] ∧ IsChainValid H bc.Blocks = true := by
  induction h with
  | init now =>
    obtain ⟨g, hg, _, _, _, _, _, hv⟩ := NewBlockchain_genesis_aux H now
    exact ⟨by rw [hg]; simp, hv⟩
  | @addBlock bc bc1 err newBlock _ hstep ih =>
    obtain ⟨hne, hv⟩ := ih
    have htip : bc.Blocks.getLast? = some (bc.Blocks.getLast hne) :=
      List.getLast?_eq_getLast _ hne
    rw [AddBlock_eq H bc _ newBlock htip] at hstep
    split_ifs at hstep with h1 h2 h3
    · have e : bc1 = bc := by
        have := Option.some.inj hstep
        exact (congrArg Prod.fst this).symm
      rw [e]
      exact ⟨hne, hv⟩
    · have e : bc1 = bc := by
        have := Option.some.inj hstep
        exact (congrArg Prod.fst this).symm
      rw [e]
      exact ⟨hne, hv⟩
    · have e : bc1 = bc := by
        have := Option.some.inj hstep
        exact (congrArg Prod.fst this).symm
      rw [e]
      exact ⟨hne, hv⟩
    · have e : bc1 = { bc with Blocks := bc.Blocks ++ [newBlock] } := by
        have := Option.some.inj hstep
        exact (congrArg Prod.fst this).symm
      rw [e]
      refine ⟨by simp, ?_⟩
      apply IsChainValid_append_of_checks H bc.Blocks _ newBlock htip hv
      exact ⟨not_not.mp h1, not_not.mp h2, not_not.mp h3⟩
  | @replaceChain bc newBlocks _ ih =>
    obtain ⟨hne, hv⟩ := ih
    unfold Blockchain.ReplaceChain
    split_ifs with hc
    · refine ⟨?_, hc.2⟩
      intro he
      have hl : newBlocks.length = 0 := by
        show ({ bc with Blocks := newBlocks } : Blockchain).Blocks.length = 0
        rw [he]
        rfl
      omega
    · exact ⟨hne, hv⟩

/-- C15: every ledger state reachable from `NewBlockchain()` by calls of `AddBlock` and
`ReplaceChain` (with any arguments, successful or not) has a non-empty block list that
`IsChainValid` accepts; on such a state `GetLastBlock` is not nil and `AddBlock` returns for
every block (its dereference of the tip does not fail). -/
theorem reachable_nonempty_valid (H : String → String) (bc : Blockchain)
    (h : Reachable H bc) :
    bc.Blocks ≠ [] ∧ IsChainValid H bc.Blocks = true ∧ bc.GetLastBlock ≠ none ∧
      ∀ b, ∃ bc1 err, bc.AddBlock H b = some (bc1, err) := by
  obtain ⟨hne, hv⟩ := reachable_inv H bc h
  refine ⟨hne, hv, ?_, fun b => ?_⟩
  · rw [GetLastBlock_eq bc hne]
    simp
  · have htip : bc.Blocks.getLast? = some (bc.Blocks.getLast hne) :=
      List.getLast?_eq_getLast _ hne
    rw [AddBlock_eq H bc _ b htip]
    exact ⟨_, _, rfl⟩

/-- Witness of `reachable_nonempty_valid`: the ledger after `NewBlockchain()` and a
`ReplaceChain` with an empty candidate. -/
theorem reachable_nonempty_valid_witness :
    Reachable calculateHash
      ((NewBlockchain calculateHash 1700000000000000000).ReplaceChain calculateHash []) ∧
    ((NewBlockchain calculateHash 1700000000000000000).ReplaceChain calculateHash []).Blocks
      ≠ [] :=
  ⟨Reachable.replaceChain [] (Reachable.init 1700000000000000000),
    (reachable_nonempty_valid calculateHash _
      (Reachable.replaceChain [] (Reachable.init 1700000000000000000))).1⟩

/-! ### Ledger: the tamper operation -/

theorem tamperBlock_fields (H : String → String) (b : Block) (newData : String) :
    (tamperBlock H b newData).BlockNumber = b.BlockNumber ∧
    (tamperBlock H b newData).PrevBlockHash = b.PrevBlockHash ∧
    (tamperBlock H b newData).CalculateBlockHash H = (tamperBlock H b newData).Hash :=
  ⟨rfl, rfl, rfl⟩

theorem tamperWithBlock_split (H : String → String) (pre post : List Block) (b : Block)
    (newData : String) (hpre : pre ≠ []) :
    (tamperWithBlock H { Blocks := pre ++ b :: post } (pre.length : Int) newData).Blocks =
      pre ++ tamperBlock H b newData :: post := by
  have hpos : 0 < pre.length := List.length_pos.mpr hpre
  have h1 : ¬ (pre ++ b :: post).length ≤ 1 := by
    simp only [List.length_append, List.length_cons]
    omega
  have h2 : ¬ ((pre.length : Int) ≤ 0 ∨ (pre.length : Int) ≥ ((pre ++ b :: post).length : Nat)) := by
    simp only [List.length_append, List.length_cons]
    push_cast
    omega
  have h3 : (pre ++ b :: post)[pre.length]? = some b := by
    rw [List.getElem?_append_right (le_refl _)]
    simp
  simp only [tamperWithBlock, h1, h2, if_false, Int.toNat_ofNat, h3]
  simp

theorem tamper_valid_iff (H : String → String) (pre post : List Block) (b : Block)
    (newData : String) (hpre : pre ≠ [])
    (hv : IsChainValid H (pre ++ b :: post) = true) :
    IsChainValid H (pre ++ tamperBlock H b newData :: post) = true ↔
      (post = [] ∨ (tamperBlock H b newData).Hash = b.Hash) := by
  obtain ⟨hb, hpost⟩ := (IsChainValid_split H pre post b).mp hv
  obtain ⟨t1, t2, t3⟩ := tamperBlock_fields H b newData
  have hfirst : (pre = [] ∧ passesGenesisChecks H (tamperBlock H b newData)) ∨
      (∃ tip, pre.getLast? = some tip ∧ IsChainValid H pre = true ∧
        passesChecks H tip (tamperBlock H b newData)) := by
    rcases hb with ⟨hp, _⟩ | ⟨tip, ht, hvp, r1, r2, _⟩
    · exact absurd hp hpre
    · exact Or.inr ⟨tip, ht, hvp, by rw [t1]; exact r1, by rw [t2]; exact r2, t3⟩
  rw [IsChainValid_split]
  constructor
  · rintro ⟨_, hc⟩
    cases post with
    | nil => exact Or.inl rfl
    | cons c rest =>
      right
      have hc1 : passesChecks H (tamperBlock H b newData) c := (List.chain_cons.mp hc).1
      have hc2 : passesChecks H b c := (List.chain_cons.mp hpost).1
      rw [← hc1.2.1, hc2.2.1]
  · rintro (h | h)
    · subst h
      exact ⟨hfirst, List.Chain.nil⟩
    · exact ⟨hfirst, (chain_congr_head H b _ post t1 h).mpr hpost⟩

theorem tamperWithBlock_valid_iff (H : String → String) (bc : Blockchain) (i : Nat)
    (b : Block) (newData : String) (hv : IsChainValid H bc.Blocks = true) (hi : 1 ≤ i)
    (hb : bc.Blocks[i]? = some b) :
    IsChainValid H (tamperWithBlock H bc (i : Int) newData).Blocks = true ↔
      (i + 1 = bc.Blocks.length ∨ (tamperBlock H b newData).Hash = b.Hash) := by
  obtain ⟨hlt, hget⟩ := List.getElem?_eq_some.mp hb
  have hsplit : bc.Blocks = bc.Blocks.take i ++ b :: bc.Blocks.drop (i + 1) := by
    rw [← hget, ← List.drop_eq_getElem_cons hlt, List.take_append_drop]
  have hlen : (bc.Blocks.take i).length = i := by
    rw [List.length_take]
    omega
  have hpre : bc.Blocks.take i ≠ [] := by
    intro h
    rw [h] at hlen
    simp at hlen
    omega
  have hbc : bc = { Blocks := bc.Blocks.take i ++ b :: bc.Blocks.drop (i + 1) } := by
    cases bc
    simp only [Blockchain.mk.injEq]
    exact hsplit
  have ht := tamperWithBlock_split H (bc.Blocks.take i) (bc.Blocks.drop (i + 1)) b newData hpre
  rw [hlen, ← hbc] at ht
  rw [ht, tamper_valid_iff H _ _ b newData hpre (by rw [← hsplit]; exact hv)]
  have hd : bc.Blocks.drop (i + 1) = [] ↔ i + 1 = bc.Blocks.length := by
    rw [List.drop_eq_nil_iff]
    omega
  rw [hd]

/-- C17, as amended: for every chain that `IsChainValid` accepts, every index `i` with
`1 <= i < len(chain)` and every new payload, `IsChainValid` rejects the chain after the tamper
operation (payload replaced, stored hash recomputed) exactly when `chain[i]` is not the last
block and the recomputed hash differs from the hash stored before; after tampering with the
last block, or with a payload that gives the hash stored before (such as the old payload), the
chain is still accepted. -/
theorem tamper_rejected_iff (H : String → String) (bc : Blockchain) (i : Nat) (b : Block)
    (newData : String) (hv : IsChainValid H bc.Blocks = true) (hi : 1 ≤ i)
    (hb : bc.Blocks[i]? = some b) :
    (IsChainValid H (tamperWithBlock H bc (i : Int) newData).Blocks = false ↔
      (i + 1 < bc.Blocks.length ∧ (tamperBlock H b newData).Hash ≠ b.Hash)) ∧
    (i + 1 = bc.Blocks.length →
      IsChainValid H (tamperWithBlock H bc (i : Int) newData).Blocks = true) ∧
    (IsChainValid H (tamperWithBlock H bc (i : Int) b.Transactions).Blocks = true) := by
  have hlt : i < bc.Blocks.length := (List.getElem?_eq_some.mp hb).1
  have key := tamperWithBlock_valid_iff H bc i b newData hv hi hb
  refine ⟨?_, fun h => key.mpr (Or.inl h), ?_⟩
  · rw [← Bool.not_eq_true, key]
    constructor
    · intro h
      exact ⟨by
        have : i + 1 ≠ bc.Blocks.length := fun e => h (Or.inl e)
        omega, fun e => h (Or.inr e)⟩
    · rintro ⟨h1, h2⟩ (e | e)
      · omega
      · exact h2 e
  · apply (tamperWithBlock_valid_iff H bc i b b.Transactions hv hi hb).mpr
    right
    obtain ⟨hb0, _⟩ := (IsChainValid_split H (bc.Blocks.take i) (bc.Blocks.drop (i + 1)) b).mp
      (by
        have hsplit : bc.Blocks = bc.Blocks.take i ++ b :: bc.Blocks.drop (i + 1) := by
          rw [← (List.getElem?_eq_some.mp hb).2, ← List.drop_eq_getElem_cons hlt,
            List.take_append_drop]
        rw [← hsplit]
        exact hv)
    have hself : b.CalculateBlockHash H = b.Hash := by
      rcases hb0 with ⟨_, _, _, g3⟩ | ⟨_, _, _, _, _, r3⟩
      · exact g3
      · exact r3
    show H _ = b.Hash
    rw [← hself]
    rfl

/-- Witness of `tamper_rejected_iff`: block 1 of the demonstration ledger. -/
theorem tamper_rejected_iff_witness :
    IsChainValid calculateHash (Blockchain.mk [demoGenesis, demoBlock1, demoBlock2]).Blocks =
      true ∧
    1 ≤ 1 ∧ (Blockchain.mk [demoGenesis, demoBlock1, demoBlock2]).Blocks[1]? = some demoBlock1 ∧
    IsChainValid calculateHash
      (tamperWithBlock calculateHash (Blockchain.mk [demoGenesis, demoBlock1, demoBlock2])
        ((1 : Nat) : Int) demoBlock1.Transactions).Blocks = true :=
  ⟨demo_chain_valid, le_refl 1, rfl,
    (tamper_rejected_iff calculateHash (Blockchain.mk [demoGenesis, demoBlock1, demoBlock2]) 1
      demoBlock1 "x" demo_chain_valid (le_refl 1) rfl).2.2⟩

/-- C17, counterexample: the demonstration ledger is accepted by `IsChainValid`; the tamper
operation on its block 2 (the last block, index 2 of 3) with a new payload changes the payload
and leaves the chain accepted. -/
theorem tamper_last_block_accepted :
    IsChainValid calculateHash (Blockchain.mk [demoGenesis, demoBlock1, demoBlock2]).Blocks =
      true ∧
    (tamperWithBlock calculateHash (Blockchain.mk [demoGenesis, demoBlock1, demoBlock2]) 2
      "bob pays mallory 1000").Blocks =
      [demoGenesis, demoBlock1, tamperBlock calculateHash demoBlock2 "bob pays mallory 1000"] ∧
    (tamperBlock calculateHash demoBlock2 "bob pays mallory 1000").Transactions ≠
      demoBlock2.Transactions ∧
    IsChainValid calculateHash
      (tamperWithBlock calculateHash (Blockchain.mk [demoGenesis, demoBlock1, demoBlock2]) 2
        "bob pays mallory 1000").Blocks = true := by
  have hsplit := tamperWithBlock_split calculateHash [demoGenesis, demoBlock1] [] demoBlock2
    "bob pays mallory 1000" (by simp)
  have hsplit2 : (tamperWithBlock calculateHash
      (Blockchain.mk [demoGenesis, demoBlock1, demoBlock2]) 2 "bob pays mallory 1000").Blocks =
      [demoGenesis, demoBlock1, tamperBlock calculateHash demoBlock2 "bob pays mallory 1000"] :=
    hsplit
  refine ⟨demo_chain_valid, hsplit2, by decide, ?_⟩
  rw [hsplit2]
  exact (tamper_valid_iff calculateHash [demoGenesis, demoBlock1] [] demoBlock2
    "bob pays mallory 1000" (by simp) demo_chain_valid).mpr (Or.inl rfl)

/-! ### Merkle tree: the root and the length of the list -/

theorem GetMerkleRoot_eq_Hash (t : MerkleTree) : t.GetMerkleRoot = t.Root.Hash := by
  unfold MerkleTree.GetMerkleRoot
  cases t.Root <;> rfl

theorem GetMerkleRoot_eq_ref (H : String → String) (fuel : Nat) (dataList : List String)
    (t : MerkleTree) (ht : NewMerkleTree H fuel dataList = some (.ok t)) :
    t.GetMerkleRoot = merkleRootRef H dataList := by
  obtain ⟨_, _, _, _, _, _, hh⟩ := NewMerkleTree_inv H fuel dataList t ht
  rw [GetMerkleRoot_eq_Hash, hh]

theorem levelFold_of_two_le (H : String → String) (xs : List String) (h : 2 ≤ xs.length) :
    levelFold H xs = levelFold H (nextLevel H xs) := by
  rcases xs with _ | ⟨x, _ | ⟨y, rest⟩⟩
  · simp at h
  · simp at h
  · rw [levelFold]

theorem nextLevel_append_last (H : String → String) (xs : List String) :
    ∀ x, xs.getLast? = some x → xs.length % 2 = 1 →
      nextLevel H (xs ++ [x]) = nextLevel H xs := by
  induction xs using two_step_induction with
  | h0 => intro x hx; simp at hx
  | h1 a =>
    intro x hx _
    have : a = x := by simpa using hx
    subst this
    rfl
  | h2 a b l ih =>
    intro x hx hodd
    have hl : l ≠ [] := by
      rintro rfl
      simp at hodd
    have hx1 : l.getLast? = some x := by
      cases l with
      | nil => exact absurd rfl hl
      | cons c l1 =>
        rw [List.getLast?_cons_cons, List.getLast?_cons_cons] at hx
        exact hx
    have hodd1 : l.length % 2 = 1 := by
      simp only [List.length_cons] at hodd
      omega
    have e := ih x hx1 hodd1
    show H (a ++ b) :: nextLevel H (l ++ [x]) = H (a ++ b) :: nextLevel H l
    rw [e]

/-- C18: for every data list `l` of odd length at least 3 and any digest function, the trees
built from `l` and from `l` followed by a copy of its last element have the same root digest,
although the two lists differ; for a list `[a]` of length 1 the two roots are `Hash(a)` and
`Hash(Hash(a) ++ Hash(a))`. -/
theorem root_same_with_last_repeated (H : String → String) :
    (∀ (fuel : Nat) (l : List String) (last : String), l.getLast? = some last →
      l.length % 2 = 1 → 3 ≤ l.length → l.length + 1 ≤ fuel →
      ∃ t1 t2, NewMerkleTree H fuel l = some (.ok t1) ∧
        NewMerkleTree H fuel (l ++ [last]) = some (.ok t2) ∧
        t1.GetMerkleRoot = t2.GetMerkleRoot ∧ l ≠ l ++ [last]) ∧
    (∀ (fuel : Nat) (a : String), 2 ≤ fuel →
      ∃ t1 t2, NewMerkleTree H fuel [a] = some (.ok t1) ∧
        NewMerkleTree H fuel ([a] ++ [a]) = some (.ok t2) ∧
        t1.GetMerkleRoot = H a ∧ t2.GetMerkleRoot = H (H a ++ H a)) := by
  constructor
  · intro fuel l last hlast hodd h3 hfuel
    have hne : l ≠ [] := by
      rintro rfl
      simp at h3
    obtain ⟨r1, _, _, ht1, _, _, _⟩ := NewMerkleTree_ok H fuel l hne (by omega)
    obtain ⟨r2, _, _, ht2, _, _, _⟩ := NewMerkleTree_ok H fuel (l ++ [last]) (by simp)
      (by simp only [List.length_append, List.length_singleton]; omega)
    refine ⟨_, _, ht1, ht2, ?_, ?_⟩
    · rw [GetMerkleRoot_eq_ref H fuel l _ ht1, GetMerkleRoot_eq_ref H fuel (l ++ [last]) _ ht2]
      unfold merkleRootRef
      rw [levelFold_of_two_le H (l.map H) (by simp; omega),
        levelFold_of_two_le H ((l ++ [last]).map H) (by simp; omega), List.map_append,
        List.map_singleton,
        nextLevel_append_last H (l.map H) (H last) (by simp [List.getLast?_map, hlast])
          (by simpa using hodd)]
    · intro h
      have := congrArg List.length h
      simp at this
  · intro fuel a hf
    obtain ⟨r1, _, _, ht1, _, _, _⟩ := NewMerkleTree_ok H fuel [a] (by simp)
      (by simp only [List.length_singleton]; omega)
    obtain ⟨r2, _, _, ht2, _, _, _⟩ := NewMerkleTree_ok H fuel ([a] ++ [a]) (by simp)
      (by simpa using hf)
    refine ⟨_, _, ht1, ht2, ?_, ?_⟩
    · rw [GetMerkleRoot_eq_ref H fuel [a] _ ht1]
      simp [merkleRootRef, levelFold]
    · rw [GetMerkleRoot_eq_ref H fuel ([a] ++ [a]) _ ht2]
      simp [merkleRootRef, levelFold, nextLevel]

/-- Witness of `root_same_with_last_repeated`: the five-item list of the demonstration and
the six-item list ending in a second "data5". -/
theorem root_same_with_last_repeated_witness :
    demoDataList.getLast? = some "data5" ∧ demoDataList.length % 2 = 1 ∧
    3 ≤ demoDataList.length ∧ demoDataList.length + 1 ≤ 6 ∧
    ∃ t1 t2, NewMerkleTree calculateHash 6 demoDataList = some (.ok t1) ∧
      NewMerkleTree calculateHash 6 (demoDataList ++ ["data5"]) = some (.ok t2) ∧
      t1.GetMerkleRoot = t2.GetMerkleRoot ∧ demoDataList ≠ demoDataList ++ ["data5"] :=
  ⟨by decide, by decide, by decide, by decide,
    (root_same_with_last_repeated calculateHash).1 6 demoDataList "data5" (by decide)
      (by decide) (by decide) (by decide)⟩

/-! ### Merkle tree: induction over the levels -/

theorem buildMerkleTreeNodes_induction (H : String → String) (leaves : List MerkleNode)
    (P : List MerkleNode → Prop)
    (hstep : ∀ lo k nodes, LevelInv leaves lo nodes k → P nodes → 2 ≤ nodes.length →
      P (parentsOf H (lo + nodes.length) nodes)) :
    ∀ (fuel lo : Nat) (nodes : List MerkleNode) (k : Nat) (root : MerkleNode),
      LevelInv leaves lo nodes k → P nodes →
      buildMerkleTreeNodes H fuel (lo + nodes.length) nodes = some root → P [root] := by
  intro fuel
  induction fuel with
  | zero =>
    intro lo nodes k root _ _ hb
    simp [buildMerkleTreeNodes] at hb
  | succ fuel ih =>
    intro lo nodes k root inv hP hb
    rcases nodes with _ | ⟨x, _ | ⟨y, rest⟩⟩
    · rw [buildMerkleTreeNodes_nil] at hb
      simp at hb
    · have : x = root := by simpa [buildMerkleTreeNodes] using hb
      rw [← this]
      exact hP
    · rw [buildMerkleTreeNodes_cons_cons,
        pairNodes_eq_parentsOf H (x :: y :: rest) _ inv.nonnil, Option.some_bind] at hb
      exact ih _ _ (k + 1) root (LevelInv.step H inv)
        (hstep lo k _ inv hP (by simp)) hb

theorem NewMerkleTree_induction (H : String → String) (fuel : Nat) (dataList : List String)
    (t : MerkleTree) (ht : NewMerkleTree H fuel dataList = some (.ok t))
    (P : List MerkleNode → Prop) (h0 : P (leafNodes H 0 dataList))
    (hstep : ∀ lo k nodes, LevelInv (leafNodes H 0 dataList) lo nodes k → P nodes →
      2 ≤ nodes.length → P (parentsOf H (lo + nodes.length) nodes)) :
    P [t.Root] := by
  have hne : dataList.length ≠ 0 := by
    intro h
    have : dataList = [] := List.length_eq_zero.mp h
    subst this
    simp [NewMerkleTree] at ht
  simp only [NewMerkleTree, hne, if_false, convertDataListToNodes_eq] at ht
  cases hb : buildMerkleTreeNodes H fuel dataList.length (leafNodes H 0 dataList) with
  | none => simp [hb] at ht
  | some root =>
    have ht1 : t = { Root := root, LeafData := dataList } := by
      simpa [hb] using ht.symm
    subst ht1
    have hb1 : buildMerkleTreeNodes H fuel (0 + (leafNodes H 0 dataList).length)
        (leafNodes H 0 dataList) = some root := by
      rw [leafNodes_length, Nat.zero_add]
      exact hb
    exact buildMerkleTreeNodes_induction H _ P hstep fuel 0 _ 0 root
      (LevelInv.ofLeaves H 0 dataList) h0 hb1

/-! ### Merkle tree: shape of the nodes and order of the leaves -/

theorem isNil_eq_false_iff (x : MerkleNode) : x.isNil = false ↔ x ≠ MerkleNode.nil := by
  cases x <;> simp [MerkleNode.isNil]

theorem shaped_not_nil (H : String → String) (x : MerkleNode) (h : x.Shaped H) :
    x.isNil = false := by
  cases x with
  | nil => exact absurd h (by simp [MerkleNode.Shaped])
  | node _ _ _ _ _ => rfl

theorem shaped_subnodes (H : String → String) (root u : MerkleNode) (h : root.Shaped H)
    (hu : u ∈ root.subnodes) : u.Shaped H := by
  induction root with
  | nil => simp [MerkleNode.subnodes] at hu
  | node a hh l r d ihl ihr =>
    simp only [MerkleNode.subnodes, List.mem_cons, List.mem_append] at hu
    rcases hu with rfl | hu | hu
    · exact h
    · rcases h with ⟨hl, _, _⟩ | ⟨hl, _, _, _⟩
      · rw [hl] at hu
        simp [MerkleNode.subnodes] at hu
      · exact ihl hl hu
    · rcases h with ⟨_, hr, _⟩ | ⟨_, hr, _, _⟩
      · rw [hr] at hu
        simp [MerkleNode.subnodes] at hu
      · exact ihr hr hu

theorem shaped_mkParent (H : String → String) (a : Nat) (l r : MerkleNode)
    (hl : l.Shaped H) (hr : r.Shaped H) (hh : l.height = r.height) :
    (mkParent H a l r).Shaped H :=
  Or.inr ⟨hl, hr, hh, rfl⟩

theorem leafData_mkParent (H : String → String) (a : Nat) (l r : MerkleNode)
    (hl : l.isNil = false) :
    (mkParent H a l r).leafData = l.leafData ++ r.leafData := by
  simp [mkParent, MerkleNode.leafData, hl]

theorem leafDataOnce_mkParent_self (H : String → String) (a : Nat) (l : MerkleNode)
    (hl : l.isNil = false) :
    (mkParent H a l l).leafDataOnce = l.leafDataOnce := by
  simp [mkParent, MerkleNode.leafDataOnce, hl, ptrEq_self]

theorem leafDataOnce_mkParent (H : String → String) (a : Nat) (l r : MerkleNode)
    (hl : l.isNil = false) (hr : r.isNil = false) (hne : l.addr ≠ r.addr) :
    (mkParent H a l r).leafDataOnce = l.leafDataOnce ++ r.leafDataOnce := by
  have : l.ptrEq r = false := by
    cases h : l.ptrEq r with
    | false => rfl
    | true => exact absurd ((ptrEq_iff r l hr).mp h).2 hne
  simp [mkParent, MerkleNode.leafDataOnce, hl, this]

theorem leftmost_mkParent (H : String → String) (a : Nat) (l r : MerkleNode)
    (hl : l.isNil = false) : (mkParent H a l r).leftmost = l.leftmost := by
  simp [mkParent, MerkleNode.leftmost, hl]

theorem flatMap_leafData_parentsOf (H : String → String) (nodes : List MerkleNode) :
    ∀ next, (∀ x ∈ nodes, x.isNil = false) →
      ∃ extra, (parentsOf H next nodes).flatMap MerkleNode.leafData =
          nodes.flatMap MerkleNode.leafData ++ extra ∧
        ∀ d ∈ extra, d ∈ nodes.flatMap MerkleNode.leafData := by
  induction nodes using two_step_induction with
  | h0 => intro next _; exact ⟨[], by simp [parentsOf], by simp⟩
  | h1 a =>
    intro next h
    refine ⟨a.leafData, ?_, ?_⟩
    · simp [parentsOf, leafData_mkParent H next a a (h a (by simp))]
    · intro d hd
      simpa using hd
  | h2 a b l ih =>
    intro next h
    obtain ⟨extra, he, hm⟩ := ih (next + 1) (fun x hx => h x (by simp [hx]))
    refine ⟨extra, ?_, ?_⟩
    · simp only [parentsOf, List.flatMap_cons, he,
        leafData_mkParent H next a b (h a (by simp)), List.append_assoc]
    · intro d hd
      have := hm d hd
      simp only [List.flatMap_cons, List.mem_append]
      exact Or.inr (Or.inr this)

theorem flatMap_leafDataOnce_parentsOf (H : String → String) (nodes : List MerkleNode) :
    ∀ next, (∀ x ∈ nodes, x.isNil = false) → (nodes.map MerkleNode.addr).Nodup →
      (parentsOf H next nodes).flatMap MerkleNode.leafDataOnce =
        nodes.flatMap MerkleNode.leafDataOnce := by
  induction nodes using two_step_induction with
  | h0 => intro next _ _; simp [parentsOf]
  | h1 a =>
    intro next h _
    simp [parentsOf, leafDataOnce_mkParent_self H next a (h a (by simp))]
  | h2 a b l ih =>
    intro next h hnd
    simp only [List.map_cons, List.nodup_cons, List.mem_cons, not_or] at hnd
    have e := ih (next + 1) (fun x hx => h x (by simp [hx])) hnd.2.2
    simp only [parentsOf, List.flatMap_cons, e,
      leafDataOnce_mkParent H next a b (h a (by simp)) (h b (by simp)) hnd.1.1,
      List.append_assoc]

theorem shapeInv_leaves (H : String → String) (dataList : List String) :
    ShapeInv H dataList (leafNodes H 0 dataList) := by
  have honce : ∀ (l : List String) (next : Nat),
      (leafNodes H next l).flatMap MerkleNode.leafDataOnce = l ∧
      (leafNodes H next l).flatMap MerkleNode.leafData = l := by
    intro l
    induction l with
    | nil => intro next; simp [leafNodes]
    | cons d l ih =>
      intro next
      simp [leafNodes, MerkleNode.leafDataOnce, MerkleNode.leafData, MerkleNode.isNil,
        (ih (next + 1)).1, (ih (next + 1)).2]
  refine ⟨?_, (honce dataList 0).1, ⟨[], by simp [(honce dataList 0).2], by simp⟩, ?_⟩
  · intro x hx
    obtain ⟨a, d, _, rfl⟩ := mem_leafNodes H 0 dataList x hx
    exact Or.inl ⟨rfl, rfl, rfl⟩
  · intro d0 hd
    cases dataList with
    | nil => simp at hd
    | cons d rest =>
      have : d = d0 := by simpa using hd
      subst this
      exact ⟨_, rfl, rfl, rfl⟩

theorem shapeInv_parents (H : String → String) (dataList : List String)
    {leaves nodes : List MerkleNode} {lo k : Nat} (inv : LevelInv leaves lo nodes k)
    (sh : ShapeInv H dataList nodes) (h2 : 2 ≤ nodes.length) :
    ShapeInv H dataList (parentsOf H (lo + nodes.length) nodes) := by
  have hnd : (nodes.map MerkleNode.addr).Nodup := by
    rw [inv.addrs]
    exact List.nodup_range' lo nodes.length
  refine ⟨?_, ?_, ?_, ?_⟩
  · intro p hp
    obtain ⟨a, l, r, rfl, hl, hr⟩ := parentsOf_mem H nodes _ p hp
    exact shaped_mkParent H a l r (sh.shaped l hl) (sh.shaped r hr)
      (by rw [inv.height_eq l hl, inv.height_eq r hr])
  · rw [flatMap_leafDataOnce_parentsOf H nodes _ inv.nonnil hnd, sh.once]
  · obtain ⟨extra, he, hm⟩ := sh.all
    obtain ⟨extra1, he1, hm1⟩ := flatMap_leafData_parentsOf H nodes (lo + nodes.length)
      inv.nonnil
    refine ⟨extra ++ extra1, by rw [he1, he, List.append_assoc], ?_⟩
    intro d hd
    rcases List.mem_append.mp hd with h | h
    · exact hm d h
    · have := hm1 d h
      rw [he] at this
      rcases List.mem_append.mp this with h1 | h1
      · exact h1
      · exact hm d h1
  · intro d0 hd
    obtain ⟨x, hx, hh, hdat⟩ := sh.first d0 hd
    rcases nodes with _ | ⟨a, _ | ⟨b, rest⟩⟩
    · simp at h2
    · simp at h2
    · have hxa : a = x := by simpa using hx
      subst hxa
      refine ⟨mkParent H (lo + (a :: b :: rest).length) a b, rfl, ?_, ?_⟩
      · rw [leftmost_mkParent H _ a b (inv.nonnil a (by simp)), hh]
      · rw [leftmost_mkParent H _ a b (inv.nonnil a (by simp)), hdat]

theorem NewMerkleTree_shape (H : String → String) (fuel : Nat) (dataList : List String)
    (t : MerkleTree) (ht : NewMerkleTree H fuel dataList = some (.ok t)) :
    ShapeInv H dataList [t.Root] :=
  NewMerkleTree_induction H fuel dataList t ht (ShapeInv H dataList)
    (shapeInv_leaves H dataList)
    (fun _ _ _ inv sh h2 => shapeInv_parents H dataList inv sh h2)

theorem shaped_node_cases (H : String → String) (u : MerkleNode) (h : u.Shaped H) :
    (u.Left = MerkleNode.nil ∧ u.Right = MerkleNode.nil ∧ u.Hash = H u.Data) ∨
    (u.Left ≠ MerkleNode.nil ∧ u.Right ≠ MerkleNode.nil ∧ u.Left.Shaped H ∧ u.Right.Shaped H ∧
      u.Left.height = u.Right.height ∧ u.Hash = H (u.Left.Hash ++ u.Right.Hash)) := by
  cases u with
  | nil => exact absurd h (by simp [MerkleNode.Shaped])
  | node a hh l r d =>
    rcases h with ⟨hl, hr, e⟩ | ⟨hl, hr, e1, e2⟩
    · exact Or.inl ⟨hl, hr, e⟩
    · exact Or.inr ⟨(isNil_eq_false_iff l).mp (shaped_not_nil H l hl),
        (isNil_eq_false_iff r).mp (shaped_not_nil H r hr), hl, hr, e1, e2⟩

/-- C14: in every tree built by `NewMerkleTree` from `dataList`, every node is either
childless, with `Hash = Hash(Data)` and `Data` an item of `dataList`, or has two non-nil
children and `Hash = Hash(Left.Hash ++ Right.Hash)`; the leaves read left to right, each leaf
node read once, are the items of `dataList` in order; read with the right child of self-paired
nodes included, they are `dataList` followed by repeated items. -/
theorem tree_nodes_and_leaves (H : String → String) (fuel : Nat) (dataList : List String)
    (t : MerkleTree) (ht : NewMerkleTree H fuel dataList = some (.ok t)) :
    (∀ u ∈ t.Root.subnodes,
      (u.Left = MerkleNode.nil ∧ u.Right = MerkleNode.nil ∧ u.Hash = H u.Data ∧
        u.Data ∈ dataList) ∨
      (u.Left ≠ MerkleNode.nil ∧ u.Right ≠ MerkleNode.nil ∧
        u.Hash = H (u.Left.Hash ++ u.Right.Hash))) ∧
    t.Root.leafDataOnce = dataList ∧
    (∃ extra, t.Root.leafData = dataList ++ extra ∧ ∀ d ∈ extra, d ∈ dataList) := by
  have sh := NewMerkleTree_shape H fuel dataList t ht
  obtain ⟨_, _, lo1, k1, hinv, _, _⟩ := NewMerkleTree_inv H fuel dataList t ht
  refine ⟨?_, by simpa using sh.once, by simpa using sh.all⟩
  intro u hu
  have hs := shaped_subnodes H t.Root u (sh.shaped t.Root (by simp)) hu
  rcases shaped_node_cases H u hs with ⟨hl, hr, hh⟩ | ⟨hl, hr, _, _, _, hh⟩
  · left
    refine ⟨hl, hr, hh, ?_⟩
    have hm := hinv.leafsrc t.Root (by simp) u hu (by simp [hl, MerkleNode.isNil])
      (by simp [hr, MerkleNode.isNil])
    obtain ⟨a, d, hd, rfl⟩ := mem_leafNodes H 0 dataList u hm
    exact hd
  · exact Or.inr ⟨hl, hr, hh⟩

/-- Witness of `tree_nodes_and_leaves`: the tree of `testMerkleTree`. -/
theorem tree_nodes_and_leaves_witness :
    NewMerkleTree calculateHash 5 demoDataList = some (.ok demoTree) ∧
    demoTree.Root.leafDataOnce = demoDataList :=
  ⟨rfl, (tree_nodes_and_leaves calculateHash 5 demoDataList demoTree rfl).2.1⟩

/-! ### Merkle proofs: the proof of the first item -/

theorem addrUniq_children (a : Nat) (h : String) (l r : MerkleNode) (d : String)
    (hu : (MerkleNode.node a h l r d).AddrUniq) : l.AddrUniq ∧ r.AddrUniq := by
  constructor
  · intro u hu1 v hv1 e
    exact hu u (by simp [MerkleNode.subnodes, hu1]) v (by simp [MerkleNode.subnodes, hv1]) e
  · intro u hu1 v hv1 e
    exact hu u (by simp [MerkleNode.subnodes, hu1]) v (by simp [MerkleNode.subnodes, hv1]) e

theorem leftSpine_subset_subnodes (root s : MerkleNode) (hs : s ∈ root.leftSpine) :
    s ∈ root.subnodes := by
  induction root with
  | nil => simp [MerkleNode.leftSpine] at hs
  | node a h l r d ihl _ =>
    simp only [MerkleNode.leftSpine, List.mem_cons] at hs
    simp only [MerkleNode.subnodes, List.mem_cons, List.mem_append]
    rcases hs with rfl | hs
    · exact Or.inl rfl
    · exact Or.inr (Or.inl (ihl hs))

theorem leftSpine_left (root s : MerkleNode) (hs : s ∈ root.leftSpine)
    (hl : s.Left.isNil = false) : s.Left ∈ root.leftSpine := by
  induction root with
  | nil => simp [MerkleNode.leftSpine] at hs
  | node a h l r d ihl _ =>
    simp only [MerkleNode.leftSpine, List.mem_cons] at hs ⊢
    rcases hs with rfl | hs
    · right
      simp only [MerkleNode.Left] at hl ⊢
      cases l with
      | nil => simp [MerkleNode.isNil] at hl
      | node _ _ _ _ _ => simp [MerkleNode.leftSpine]
    · exact Or.inr (ihl hs)

theorem self_mem_leftSpine (root : MerkleNode) (h : root.isNil = false) :
    root ∈ root.leftSpine := by
  cases root with
  | nil => simp [MerkleNode.isNil] at h
  | node _ _ _ _ _ => simp [MerkleNode.leftSpine]

theorem leftmost_not_nil (x : MerkleNode) (h : x.isNil = false) : x.leftmost.isNil = false := by
  induction x with
  | nil => simp [MerkleNode.isNil] at h
  | node a hh l r d ihl _ =>
    simp only [MerkleNode.leftmost]
    split_ifs with hl
    · rfl
    · exact ihl (by simpa using hl)

theorem findNodeRecursive_leftmost (H : String → String) (target : String) (root : MerkleNode)
    (hs : root.Shaped H) (hh : root.leftmost.Hash = target) :
    findNodeRecursive target root = root.leftmost := by
  induction root with
  | nil => exact absurd hs (by simp [MerkleNode.Shaped])
  | node a h l r d ihl _ =>
    rcases hs with ⟨hl, hr, _⟩ | ⟨hl, _, _, _⟩
    · subst hl hr
      simp only [MerkleNode.leftmost, MerkleNode.isNil, if_true, MerkleNode.Hash] at hh ⊢
      simp [findNodeRecursive, MerkleNode.isNil, hh]
    · have hln := shaped_not_nil H l hl
      simp only [MerkleNode.leftmost, hln, Bool.false_eq_true, if_false] at hh ⊢
      have e := ihl hl hh
      have hne := leftmost_not_nil l hln
      simp [findNodeRecursive, hln, e, hne]

theorem ptrEq_eq_of_mem (root u v : MerkleNode) (hu : root.AddrUniq) (h1 : u ∈ root.subnodes)
    (h2 : v ∈ root.subnodes) (h : u.ptrEq v = true) : u = v := by
  have hv := subnodes_not_nil root v h2
  exact hu u h1 v h2 ((ptrEq_iff v u hv).mp h).2

theorem findParent_spine (H : String → String) (root : MerkleNode) (hs : root.Shaped H)
    (hu : root.AddrUniq) :
    ∀ s ∈ root.leftSpine, s.Left.isNil = false → findParent root s.Left = s := by
  induction root with
  | nil => intro s h; simp [MerkleNode.leftSpine] at h
  | node a h l r d ihl _ =>
    intro s hsp hc
    simp only [MerkleNode.leftSpine, List.mem_cons] at hsp
    rcases hsp with rfl | hsp
    · simp only [MerkleNode.Left] at hc ⊢
      simp [findParent, hc, ptrEq_self]
    · have hsl : s ∈ l.subnodes := leftSpine_subset_subnodes l s hsp
      have hln : l.isNil = false := by
        cases l with
        | nil => simp [MerkleNode.leftSpine] at hsp
        | node _ _ _ _ _ => rfl
      rcases hs with ⟨hl, _, _⟩ | ⟨hshl, hshr, hheq, _⟩
      · rw [hl] at hln
        simp [MerkleNode.isNil] at hln
      · have hcl : s.Left ∈ l.subnodes := subnodes_trans _ _ _ (left_mem_subnodes s hc) hsl
        have hlt : s.Left.height < l.height := by
          have h1 := (child_height_lt s (subnodes_not_nil l s hsl)).1
          have h2 := height_le_of_mem_subnodes l s hsl
          omega
        have hcr : s.Left ∈ (MerkleNode.node a h l r d).subnodes := by
          simp [MerkleNode.subnodes, hcl]
        have hlr : l ∈ (MerkleNode.node a h l r d).subnodes := by
          simp [MerkleNode.subnodes, subnodes_self l hln]
        have hrn : r.isNil = false := shaped_not_nil H r hshr
        have hrr : r ∈ (MerkleNode.node a h l r d).subnodes := by
          simp [MerkleNode.subnodes, subnodes_self r hrn]
        have h1 : l.ptrEq s.Left = false := by
          cases e : l.ptrEq s.Left with
          | false => rfl
          | true =>
            have := ptrEq_eq_of_mem _ _ _ hu hlr hcr e
            rw [← this] at hlt
            omega
        have h2 : r.ptrEq s.Left = false := by
          cases e : r.ptrEq s.Left with
          | false => rfl
          | true =>
            have := ptrEq_eq_of_mem _ _ _ hu hrr hcr e
            rw [← this] at hlt
            omega
        have e := ihl hshl (addrUniq_children a h l r d hu).1 s hsp hc
        have hsn : s.isNil = false := subnodes_not_nil l s hsl
        simp [findParent, hln, h1, h2, e, hsn]

theorem shaped_height (H : String → String) (s : MerkleNode) (hs : s.Shaped H) :
    (s.Left.isNil = true → s.height = 1) ∧
    (s.Left.isNil = false → s.height = s.Left.height + 1 ∧ 1 ≤ s.Left.height) := by
  cases s with
  | nil => exact absurd hs (by simp [MerkleNode.Shaped])
  | node a h l r d =>
    rcases hs with ⟨hl, hr, _⟩ | ⟨hshl, _, hheq, _⟩
    · subst hl hr
      simp [MerkleNode.Left, MerkleNode.isNil, MerkleNode.height]
    · have hln := shaped_not_nil H l hshl
      simp only [MerkleNode.Left, hln, Bool.false_eq_true, false_implies, true_implies,
        MerkleNode.height, true_and]
      constructor
      · omega
      · cases l with
        | nil => simp [MerkleNode.isNil] at hln
        | node _ _ _ _ _ =>
          simp only [MerkleNode.height]
          omega

theorem proofLoop_step_spine (H : String → String) (root : MerkleNode) (hs : root.Shaped H)
    (hu : root.AddrUniq) (s : MerkleNode) (hsp : s ∈ root.leftSpine)
    (hc : s.Left.isNil = false) (fuel : Nat) (acc : List String) :
    proofLoop root (fuel + 1) s.Left acc = proofLoop root fuel s (acc ++ [s.Right.Hash]) := by
  have hsr : s ∈ root.subnodes := leftSpine_subset_subnodes root s hsp
  have hsn : s.isNil = false := subnodes_not_nil root s hsr
  have hss : s.Shaped H := shaped_subnodes H root s hs hsr
  have hcr : s.Left ∈ root.subnodes := subnodes_trans _ _ _ (left_mem_subnodes s hc) hsr
  have hrn : root.isNil = false := shaped_not_nil H root hs
  have h1 : s.Left.ptrEq root = false := by
    cases e : s.Left.ptrEq root with
    | false => rfl
    | true =>
      have := ptrEq_eq_of_mem root _ _ hu hcr (subnodes_self root hrn) e
      have h2 := (child_height_lt s hsn).1
      have h3 := height_le_of_mem_subnodes root s hsr
      rw [this] at h2
      omega
  have hp := findParent_spine H root hs hu s hsp hc
  have hrs : s.Right.isNil = false := by
    rcases shaped_node_cases H s hss with ⟨hl, _, _⟩ | ⟨_, hr, _⟩
    · rw [hl] at hc
      simp [MerkleNode.isNil] at hc
    · exact (isNil_eq_false_iff _).mpr hr
  simp [proofLoop, h1, hp, hsn, ptrEq_self, hrs]

theorem proofLoop_spine (H : String → String) (root : MerkleNode) (hs : root.Shaped H)
    (hu : root.AddrUniq) :
    ∀ s, s ∈ root.leftSpine → ∀ (fuel : Nat) (acc : List String),
      proofLoop root (fuel + (s.height - 1)) s.leftmost acc =
        proofLoop root fuel s (acc ++ s.leftPathProof) := by
  intro s
  induction s with
  | nil =>
    intro hsp
    have := subnodes_not_nil root _ (leftSpine_subset_subnodes root _ hsp)
    simp [MerkleNode.isNil] at this
  | node a h l r d ihl _ =>
    intro hsp fuel acc
    have hss : (MerkleNode.node a h l r d).Shaped H :=
      shaped_subnodes H root _ hs (leftSpine_subset_subnodes root _ hsp)
    obtain ⟨hh1, hh2⟩ := shaped_height H _ hss
    by_cases hl : l.isNil = true
    · have e1 := hh1 hl
      rw [e1]
      simp [MerkleNode.leftmost, MerkleNode.leftPathProof, hl]
    · have hln : l.isNil = false := by simpa using hl
      obtain ⟨e1, e2⟩ := hh2 hln
      simp only [MerkleNode.Left] at e1 e2
      have hlsp : l ∈ root.leftSpine := leftSpine_left root _ hsp hln
      have step := proofLoop_step_spine H root hs hu _ hsp hln fuel (acc ++ l.leftPathProof)
      simp only [MerkleNode.Left, MerkleNode.Right] at step
      have e3 : fuel + ((MerkleNode.node a h l r d).height - 1) =
          (fuel + 1) + (l.height - 1) := by
        rw [e1]
        omega
      rw [e3, show (MerkleNode.node a h l r d).leftmost = l.leftmost by
        simp [MerkleNode.leftmost, hln], ihl hlsp (fuel + 1) acc, step]
      simp [MerkleNode.leftPathProof, hln]

theorem foldl_leftPathProof (H : String → String) (root : MerkleNode) (hs : root.Shaped H) :
    root.leftPathProof.foldl (fun c s => H (c ++ s)) root.leftmost.Hash = root.Hash := by
  induction root with
  | nil => exact absurd hs (by simp [MerkleNode.Shaped])
  | node a h l r d ihl _ =>
    rcases hs with ⟨hl, hr, _⟩ | ⟨hshl, _, _, hh⟩
    · subst hl hr
      simp [MerkleNode.leftPathProof, MerkleNode.leftmost, MerkleNode.isNil]
    · have hln := shaped_not_nil H l hshl
      have e := ihl hshl
      simp only [MerkleNode.leftPathProof, MerkleNode.leftmost, hln, Bool.false_eq_true,
        if_false, List.foldl_append, List.foldl_cons, List.foldl_nil]
      rw [e]
      exact hh.symm

theorem NewMerkleTree_root_facts (H : String → String) (fuel : Nat) (dataList : List String)
    (t : MerkleTree) (ht : NewMerkleTree H fuel dataList = some (.ok t)) :
    t.Root.Shaped H ∧ t.Root.AddrUniq ∧ t.Root.height ≤ dataList.length := by
  have sh := NewMerkleTree_shape H fuel dataList t ht
  obtain ⟨_, _, lo1, k1, hinv, hk, _⟩ := NewMerkleTree_inv H fuel dataList t ht
  refine ⟨sh.shaped t.Root (by simp), root_uniq_of_levelInv hinv, ?_⟩
  rw [hinv.height_eq t.Root (by simp)]
  exact hk

/-- C16: for the first item of the data list, `GenerateMerkleProof` returns the digests of the
right children along the all-left path, from the sibling of the first leaf up to the right
child of the root, and `VerifyMerkleProof` accepts that proof for the first item against the
root of the tree, for any digest function. -/
theorem first_item_proof_verifies (H : String → String) (fuel1 fuel2 : Nat)
    (dataList : List String) (t : MerkleTree) (first : String)
    (ht : NewMerkleTree H fuel1 dataList = some (.ok t))
    (hfirst : dataList.head? = some first) (hfuel : dataList.length ≤ fuel2) :
    t.GenerateMerkleProof H fuel2 first = some (.ok t.Root.leftPathProof) ∧
    t.VerifyMerkleProof H first t.Root.leftPathProof t.GetMerkleRoot = true := by
  obtain ⟨hs, hu, hh⟩ := NewMerkleTree_root_facts H fuel1 dataList t ht
  have sh := NewMerkleTree_shape H fuel1 dataList t ht
  obtain ⟨x, hx, hxh, _⟩ := sh.first first hfirst
  have hxr : x = t.Root := by simpa using hx.symm
  subst hxr
  have hrn : t.Root.isNil = false := shaped_not_nil H _ hs
  have hpos : 1 ≤ t.Root.height := by
    cases hr : t.Root with
    | nil => rw [hr] at hrn; simp [MerkleNode.isNil] at hrn
    | node _ _ _ _ _ => simp [MerkleNode.height]
  constructor
  · unfold MerkleTree.GenerateMerkleProof findLeafNode
    rw [findNodeRecursive_leftmost H (H first) t.Root hs hxh]
    simp only [leftmost_not_nil t.Root hrn, Bool.false_eq_true, if_false]
    obtain ⟨f, hf⟩ : ∃ f, fuel2 = (f + 1) + (t.Root.height - 1) :=
      ⟨fuel2 - t.Root.height, by omega⟩
    rw [hf, proofLoop_spine H t.Root hs hu t.Root (self_mem_leftSpine t.Root hrn) (f + 1) []]
    simp [proofLoop, ptrEq_self]
  · simp only [MerkleTree.VerifyMerkleProof, beq_iff_eq, GetMerkleRoot_eq_Hash]
    rw [← hxh]
    exact foldl_leftPathProof H t.Root hs

/-- Witness of `first_item_proof_verifies`: the tree of `testMerkleTree` and "data1". -/
theorem first_item_proof_verifies_witness :
    NewMerkleTree calculateHash 5 demoDataList = some (.ok demoTree) ∧
    demoDataList.head? = some "data1" ∧ demoDataList.length ≤ 5 ∧
    demoTree.VerifyMerkleProof calculateHash "data1" demoTree.Root.leftPathProof
      demoTree.GetMerkleRoot = true :=
  ⟨rfl, rfl, by decide,
    (first_item_proof_verifies calculateHash 5 5 demoDataList demoTree "data1" rfl rfl
      (by decide)).2⟩

/-! ### Digest function: digests have 64 characters, and two strings share a digest -/

theorem hexEncodeToString_length (bs : List Nat) :
    (hexEncodeToString bs).length = 2 * bs.length := by
  unfold hexEncodeToString
  show (bs.flatMap fun b => [hexDigit (b / 16), hexDigit (b % 16)]).length = 2 * bs.length
  induction bs with
  | nil => rfl
  | cons b bs ih =>
    simp only [List.flatMap_cons, List.length_append, List.length_cons, List.length_nil, ih]
    omega

theorem calculateHash_length (s : String) : (calculateHash s).length = 64 := by
  unfold calculateHash
  rw [hexEncodeToString_length]
  simp [Sha256.Sum256, Sha256.wordBytes]

theorem wordBytes_mod (w : Nat) : Sha256.wordBytes (w % 4294967296) = Sha256.wordBytes w := by
  unfold Sha256.wordBytes
  simp only [Nat.shiftRight_eq_div_pow]
  norm_num
  omega

theorem string_infinite : Infinite String :=
  Infinite.of_injective (fun n : Nat => String.mk (List.replicate n 'a')) (by
    intro m n h
    have := congrArg (fun s : String => s.data.length) h
    simpa using this)

theorem calculateHash_collision : ∃ a y : String, a ≠ y ∧ calculateHash a = calculateHash y := by
  let final : String → Sha256.State := fun s =>
    Sha256.blocks ((Sha256.pad (stringBytes s)).length / 64) (Sha256.pad (stringBytes s))
      ⟨1779033703, 3144134277, 1013904242, 2773480762,
       1359893119, 2600822924, 528734635, 1541459225⟩
  let key : String → Fin 4294967296 × Fin 4294967296 × Fin 4294967296 × Fin 4294967296 ×
      Fin 4294967296 × Fin 4294967296 × Fin 4294967296 × Fin 4294967296 := fun s =>
    (⟨(final s).a % 4294967296, Nat.mod_lt _ (by decide)⟩,
     ⟨(final s).b % 4294967296, Nat.mod_lt _ (by decide)⟩,
     ⟨(final s).c % 4294967296, Nat.mod_lt _ (by decide)⟩,
     ⟨(final s).d % 4294967296, Nat.mod_lt _ (by decide)⟩,
     ⟨(final s).e % 4294967296, Nat.mod_lt _ (by decide)⟩,
     ⟨(final s).f % 4294967296, Nat.mod_lt _ (by decide)⟩,
     ⟨(final s).g % 4294967296, Nat.mod_lt _ (by decide)⟩,
     ⟨(final s).h % 4294967296, Nat.mod_lt _ (by decide)⟩)
  haveI := string_infinite
  obtain ⟨a, y, hne, hk⟩ := Finite.exists_ne_map_eq_of_infinite key
  refine ⟨a, y, hne, ?_⟩
  have hc : ∀ s, calculateHash s = hexEncodeToString
      (Sha256.wordBytes ((final s).a % 4294967296) ++
       Sha256.wordBytes ((final s).b % 4294967296) ++
       Sha256.wordBytes ((final s).c % 4294967296) ++
       Sha256.wordBytes ((final s).d % 4294967296) ++
       Sha256.wordBytes ((final s).e % 4294967296) ++
       Sha256.wordBytes ((final s).f % 4294967296) ++
       Sha256.wordBytes ((final s).g % 4294967296) ++
       Sha256.wordBytes ((final s).h % 4294967296)) := by
    intro s
    simp only [wordBytes_mod]
    rfl
  simp only [key, Prod.mk.injEq, Fin.mk.injEq] at hk
  obtain ⟨h1, h2, h3, h4, h5, h6, h7, h8⟩ := hk
  rw [hc a, hc y, h1, h2, h3, h4, h5, h6, h7, h8]

/-! ### Merkle proofs: verification of an item that is not in the list -/

theorem string_append_inj (a b c d : String) (h : a ++ b = c ++ d)
    (hl : a.length = c.length) : a = c ∧ b = d := by
  have h1 : a.data ++ b.data = c.data ++ d.data := by
    have := congrArg String.data h
    simpa using this
  have h2 : a.data.length = c.data.length := hl
  obtain ⟨e1, e2⟩ := List.append_inj h1 h2
  exact ⟨String.ext e1, String.ext e2⟩

theorem verifySteps_append (H : String → String) (p : List String) :
    ∀ (running s : String), verifySteps H running (p ++ [s]) =
      verifySteps H running p ++ [p.foldl (fun c x => H (c ++ x)) running ++ s] := by
  induction p with
  | nil => intro running s; rfl
  | cons x p ih =>
    intro running s
    have e := ih (H (running ++ x)) s
    show (running ++ x) :: verifySteps H (H (running ++ x)) (p ++ [s]) = _
    rw [e]
    rfl

theorem foldl_is_digest (H : String → String) (p : List String) :
    ∀ z, ∃ z1, p.foldl (fun c x => H (c ++ x)) (H z) = H z1 := by
  induction p with
  | nil => intro z; exact ⟨z, rfl⟩
  | cons x p ih =>
    intro z
    exact ih (H z ++ x)

theorem shaped_hash_is_digest (H : String → String) (u : MerkleNode) (hs : u.Shaped H) :
    ∃ z, u.Hash = H z := by
  rcases shaped_node_cases H u hs with ⟨_, _, h⟩ | ⟨_, _, _, _, _, h⟩
  · exact ⟨_, h⟩
  · exact ⟨_, h⟩

theorem hashInputs_children (a : Nat) (h : String) (l r : MerkleNode) (d : String) (b : String) :
    (b ∈ l.hashInputs → b ∈ (MerkleNode.node a h l r d).hashInputs) ∧
    (b ∈ r.hashInputs → b ∈ (MerkleNode.node a h l r d).hashInputs) := by
  simp only [MerkleNode.hashInputs, MerkleNode.subnodes, List.map_cons, List.map_append,
    List.mem_cons, List.mem_append]
  exact ⟨fun h1 => Or.inr (Or.inl h1), fun h1 => Or.inr (Or.inr h1)⟩

theorem verify_collision (H : String → String) (hlen : ∀ s t, (H s).length = (H t).length)
    (root : MerkleNode) (hs : root.Shaped H) :
    ∀ (a0 : String) (p : List String), p.length + 1 = root.height →
      p.foldl (fun c s => H (c ++ s)) (H a0) = root.Hash →
      a0 = root.leftmost.Data ∨
        ∃ a ∈ verifyInputs H a0 p, ∃ b ∈ root.hashInputs, a ≠ b ∧ H a = H b := by
  induction root with
  | nil => exact absurd hs (by simp [MerkleNode.Shaped])
  | node adr h l r d ihl _ =>
    intro a0 p hp hf
    rcases hs with ⟨hl, hr, hh⟩ | ⟨hshl, hshr, hheq, hh⟩
    · subst hl hr
      have hp0 : p = [] := by
        simp only [MerkleNode.height] at hp
        exact List.length_eq_zero.mp (by omega)
      subst hp0
      simp only [List.foldl_nil, MerkleNode.Hash] at hf
      by_cases e : a0 = d
      · left
        simpa [MerkleNode.leftmost, MerkleNode.isNil, MerkleNode.Data] using e
      · right
        refine ⟨a0, by simp [verifyInputs], d, ?_, e, by rw [hf, hh]⟩
        simp [MerkleNode.hashInputs, MerkleNode.subnodes, MerkleNode.Left, MerkleNode.Right,
          MerkleNode.isNil, MerkleNode.Data]
    · have hln := shaped_not_nil H l hshl
      have hheight : (MerkleNode.node adr h l r d).height = l.height + 1 := by
        simp only [MerkleNode.height]
        omega
      have hlpos : 1 ≤ l.height := by
        cases l with
        | nil => simp [MerkleNode.isNil] at hln
        | node _ _ _ _ _ =>
          simp only [MerkleNode.height]
          omega
      have hpne : p ≠ [] := by
        intro e
        rw [e] at hp
        simp at hp
        omega
      obtain ⟨p1, s, rfl⟩ : ∃ p1 s, p = p1 ++ [s] :=
        ⟨p.dropLast, p.getLast hpne, (List.dropLast_append_getLast hpne).symm⟩
      simp only [List.foldl_append, List.foldl_cons, List.foldl_nil, MerkleNode.Hash] at hf
      have hown : l.Hash ++ r.Hash ∈ (MerkleNode.node adr h l r d).hashInputs := by
        simp [MerkleNode.hashInputs, MerkleNode.subnodes, MerkleNode.Left, MerkleNode.Right,
          hln]
      have hlast : p1.foldl (fun c s => H (c ++ s)) (H a0) ++ s ∈
          verifyInputs H a0 (p1 ++ [s]) := by
        simp [verifyInputs, verifySteps_append]
      by_cases e : p1.foldl (fun c s => H (c ++ s)) (H a0) ++ s = l.Hash ++ r.Hash
      · obtain ⟨z1, hz1⟩ := foldl_is_digest H p1 a0
        obtain ⟨z2, hz2⟩ := shaped_hash_is_digest H l hshl
        obtain ⟨e1, _⟩ := string_append_inj _ _ _ _ e (by rw [hz1, hz2]; exact hlen _ _)
        have hp1 : p1.length + 1 = l.height := by
          simp only [List.length_append, List.length_singleton] at hp
          omega
        rcases ihl hshl a0 p1 hp1 e1 with h1 | ⟨a, ha, b, hb, hne, hab⟩
        · left
          simpa [MerkleNode.leftmost, hln] using h1
        · right
          refine ⟨a, ?_, b, (hashInputs_children adr h l r d b).1 hb, hne, hab⟩
          simp only [verifyInputs, verifySteps_append, List.mem_cons, List.mem_append] at ha ⊢
          rcases ha with ha | ha
          · exact Or.inl ha
          · exact Or.inr (Or.inl ha)
      · right
        exact ⟨_, hlast, _, hown, e, by rw [hf, hh]⟩

theorem proofLoop_length (H : String → String) (root : MerkleNode) (hs : root.Shaped H)
    (hu : root.AddrUniq) :
    ∀ (fuel : Nat) (c : MerkleNode) (acc p : List String), c ∈ root.subnodes →
      proofLoop root fuel c acc = some (.ok p) →
      p.length + c.height = acc.length + root.height := by
  intro fuel
  induction fuel with
  | zero =>
    intro c acc p _ h
    simp [proofLoop] at h
  | succ fuel ih =>
    intro c acc p hc h
    have hcn : c.isNil = false := subnodes_not_nil root c hc
    have hrn : root.isNil = false := shaped_not_nil H root hs
    by_cases hpe : c.ptrEq root = true
    · have e := ptrEq_eq_of_mem root c root hu hc (subnodes_self root hrn) hpe
      simp only [proofLoop, hpe, if_true, Option.some.injEq, Except.ok.injEq] at h
      rw [e, h]
    · simp only [proofLoop, hpe, Bool.false_eq_true, if_false] at h
      by_cases hpn : (findParent root c).isNil = true
      · simp [hpn] at h
      · have hpn1 : (findParent root c).isNil = false := by simpa using hpn
        simp only [hpn1, Bool.false_eq_true, if_false] at h
        obtain ⟨hpm, hpc⟩ := findParent_spec root c hpn1
        have hps := shaped_subnodes H root _ hs hpm
        rcases shaped_node_cases H _ hps with ⟨hl, hr, _⟩ | ⟨hl, hr, _, _, hheq, _⟩
        · exfalso
          rw [hl, hr] at hpc
          have := (ptrEq_iff c MerkleNode.nil hcn).mp (hpc.elim id id)
          simp [MerkleNode.isNil] at this
        · have hln := (isNil_eq_false_iff _).mpr hl
          have hrn1 := (isNil_eq_false_iff _).mpr hr
          obtain ⟨hh2, _⟩ := (shaped_height H _ hps).2 hln
          have hch : (findParent root c).height = c.height + 1 := by
            rcases hpc with e | e
            · have := ptrEq_eq_of_mem root _ c hu
                (subnodes_trans _ _ _ (left_mem_subnodes _ hln) hpm) hc e
              rw [hh2, this]
            · have := ptrEq_eq_of_mem root _ c hu
                (subnodes_trans _ _ _ (right_mem_subnodes _ hrn1) hpm) hc e
              rw [hh2, hheq, this]
          have hsib : ((if (findParent root c).Left.ptrEq c = true then
              (findParent root c).Right else (findParent root c).Left).isNil) = false := by
            split_ifs
            · exact hrn1
            · exact hln
          simp only [hsib, Bool.not_false, if_true] at h
          have := ih _ _ p hpm h
          simp only [List.length_append, List.length_singleton] at this
          omega

theorem GenerateMerkleProof_length (H : String → String) (fuel1 fuel2 : Nat)
    (dataList : List String) (t : MerkleTree) (x : String) (p : List String)
    (ht : NewMerkleTree H fuel1 dataList = some (.ok t))
    (hp : t.GenerateMerkleProof H fuel2 x = some (.ok p)) :
    p.length + 1 = t.Root.height := by
  obtain ⟨hs, hu, _⟩ := NewMerkleTree_root_facts H fuel1 dataList t ht
  unfold MerkleTree.GenerateMerkleProof findLeafNode at hp
  by_cases hn : (findNodeRecursive (H x) t.Root).isNil = true
  · simp [hn] at hp
  · have hn1 : (findNodeRecursive (H x) t.Root).isNil = false := by simpa using hn
    simp only [hn1, Bool.false_eq_true, if_false] at hp
    obtain ⟨hm, hl, _, _⟩ := findNodeRecursive_spec (H x) t.Root hn1
    have := proofLoop_length H t.Root hs hu fuel2 _ [] p hm hp
    have h1 := (shaped_height H _ (shaped_subnodes H t.Root _ hs hm)).1 hl
    simp only [List.length_nil] at this
    omega

theorem verify_wrong_item (H : String → String) (hlen : ∀ s t, (H s).length = (H t).length)
    (fuel1 fuel2 : Nat) (dataList : List String) (t : MerkleTree) (x y : String)
    (p : List String) (ht : NewMerkleTree H fuel1 dataList = some (.ok t))
    (hp : t.GenerateMerkleProof H fuel2 x = some (.ok p)) (hy : y ∉ dataList) :
    t.VerifyMerkleProof H y p t.GetMerkleRoot = false ∨
      ∃ a ∈ verifyInputs H y p, ∃ b ∈ t.Root.hashInputs, a ≠ b ∧ H a = H b := by
  obtain ⟨hs, _, _⟩ := NewMerkleTree_root_facts H fuel1 dataList t ht
  have sh := NewMerkleTree_shape H fuel1 dataList t ht
  have hplen := GenerateMerkleProof_length H fuel1 fuel2 dataList t x p ht hp
  cases hv : t.VerifyMerkleProof H y p t.GetMerkleRoot with
  | false => exact Or.inl rfl
  | true =>
    right
    simp only [MerkleTree.VerifyMerkleProof, beq_iff_eq, GetMerkleRoot_eq_Hash] at hv
    rcases verify_collision H hlen t.Root hs y p hplen hv with h | h
    · exfalso
      obtain ⟨hne, _, _⟩ := NewMerkleTree_inv H fuel1 dataList t ht
      cases hd : dataList with
      | nil => exact hne hd
      | cons d0 rest =>
        obtain ⟨x0, hx0, _, hdat⟩ := sh.first d0 (by rw [hd]; rfl)
        have : x0 = t.Root := by simpa using hx0.symm
        subst this
        rw [hdat] at h
        apply hy
        rw [hd, h]
        simp
    · exact h

theorem single_leaf_tree (H : String → String) (a : String) :
    NewMerkleTree H 1 [a] =
        some (.ok { Root := .node 0 (H a) .nil .nil a, LeafData := [a] }) ∧
    (MerkleTree.mk (.node 0 (H a) .nil .nil a) [a]).GenerateMerkleProof H 1 a =
      some (.ok []) := by
  constructor
  · simp [NewMerkleTree, convertDataListToNodes, buildMerkleTreeNodes]
  · simp [MerkleTree.GenerateMerkleProof, findLeafNode, findNodeRecursive, MerkleNode.isNil,
      proofLoop, MerkleNode.ptrEq]

/-- C11, counterexample: there are two different strings `a` and `y` such that, on the tree
built by `NewMerkleTree` from the list `[a]`, the proof generated for `a` makes
`VerifyMerkleProof(y, proof, GetMerkleRoot())` return true although `y` is not in the list
(the SHA-256 hex digests are finitely many, the strings are not). -/
theorem wrong_item_accepted :
    ∃ (a y : String) (t : MerkleTree) (p : List String), y ∉ [a] ∧ a ∈ [a] ∧
      NewMerkleTree calculateHash 1 [a] = some (.ok t) ∧
      t.GenerateMerkleProof calculateHash 1 a = some (.ok p) ∧
      t.VerifyMerkleProof calculateHash y p t.GetMerkleRoot = true := by
  obtain ⟨a, y, hne, hc⟩ := calculateHash_collision
  refine ⟨a, y, _, [], ?_, by simp, (single_leaf_tree calculateHash a).1,
    (single_leaf_tree calculateHash a).2, ?_⟩
  · simpa using fun h => hne h.symm
  · simp [MerkleTree.VerifyMerkleProof, MerkleTree.GetMerkleRoot, hc]

set_option maxRecDepth 1000000 in
theorem wrong_data_rejected_demo :
    wrongItemCheck calculateHash 5 demoDataList "data3" "wrong_data" = some false := by
  decide

/-- C11, as amended: for every digest function whose digests have one common length, every tree
built by `NewMerkleTree` from `dataList`, every proof `p` returned by `GenerateMerkleProof` and
every string `y` that is not in `dataList`, `VerifyMerkleProof(y, p, GetMerkleRoot())` returns
false unless one of the strings it hashes (`y`, or a running digest followed by a proof entry)
has the digest of a different string that was hashed when the tree was built (an item, or
`Left.Hash ++ Right.Hash` of a node).  The SHA-256 hex digests have 64 characters, and on the
tree of "data1" .. "data5" the proof of "data3" is rejected for "wrong_data". -/
theorem wrong_item_rejected_or_collision :
    (∀ (H : String → String), (∀ s t, (H s).length = (H t).length) →
      ∀ (fuel1 fuel2 : Nat) (dataList : List String) (t : MerkleTree) (x y : String)
        (p : List String), NewMerkleTree H fuel1 dataList = some (.ok t) → x ∈ dataList →
        t.GenerateMerkleProof H fuel2 x = some (.ok p) → y ∉ dataList →
        (t.VerifyMerkleProof H y p t.GetMerkleRoot = false ∨
          ∃ a ∈ verifyInputs H y p, ∃ b ∈ t.Root.hashInputs, a ≠ b ∧ H a = H b)) ∧
    (∀ s t, (calculateHash s).length = (calculateHash t).length) ∧
    wrongItemCheck calculateHash 5 demoDataList "data3" "wrong_data" = some false := by
  refine ⟨?_, fun s t => by rw [calculateHash_length, calculateHash_length],
    wrong_data_rejected_demo⟩
  intro H hlen fuel1 fuel2 dataList t x y p ht _ hp hy
  exact verify_wrong_item H hlen fuel1 fuel2 dataList t x y p ht hp hy

set_option maxRecDepth 1000000 in
/-- Witness of `wrong_item_rejected_or_collision`: the tree of `testMerkleTree`, the proof it
generates for "data3", and the string "wrong_data". -/
theorem wrong_item_rejected_or_collision_witness :
    (∀ s t, (calculateHash s).length = (calculateHash t).length) ∧
    NewMerkleTree calculateHash 5 demoDataList = some (.ok demoTree) ∧
    "data3" ∈ demoDataList ∧
    demoTree.GenerateMerkleProof calculateHash 5 "data3" = some (.ok demoProof) ∧
    "wrong_data" ∉ demoDataList ∧
    (demoTree.VerifyMerkleProof calculateHash "wrong_data" demoProof demoTree.GetMerkleRoot =
        false ∨
      ∃ a ∈ verifyInputs calculateHash "wrong_data" demoProof,
        ∃ b ∈ demoTree.Root.hashInputs, a ≠ b ∧ calculateHash a = calculateHash b) :=
  ⟨wrong_item_rejected_or_collision.2.1, rfl, by decide, rfl, by decide,
    wrong_item_rejected_or_collision.1 calculateHash wrong_item_rejected_or_collision.2.1
      5 5 demoDataList demoTree "data3" "wrong_data" demoProof rfl (by decide) rfl
      (by decide)⟩

end Core
